import Mathlib

/-!
# Verification of the MyMalloc allocator (`mymalloc.c`)

Shallow embedding of the allocator in `src/mymalloc.c` (rzavalet/MyMalloc).

Modelling conventions.

* The code runs on a 64-bit platform: `uintptr_t`/`size_t` arithmetic is
  modelled on `Nat` with an explicit modulus `W = 2 ^ 64`;
  `sizeof(allocHdr) = sizeof(void *) = 8`.
* Addresses are absolute natural numbers; the null pointer is `0`.
* A block header stores one word, `hdr.next`: a pointer with the in-use flag
  packed into its low bit (`IN_USE_BIT = 1`).  We model the word `w` as the
  pair `Header.next = w - w % 2` (the pointer part, even) and
  `Header.inUse = (w % 2 == 1)` (the tag bit).  Converting a stored pointer
  value to this representation is `toHeader`.  Every write the program
  performs stores either a pointer value (`toHeader`) or the result of the
  `SET_INUSE`/`UNSET_INUSE` macros, so `Header.next` is even in every state
  the program can construct.
* Memory is a total function `Mem = Nat → Header`: the cell at address `a`
  models the 8 header bytes starting at `a`.  The program only ever reads
  cells it reached through the block chain, so cells outside the arena are
  harmless garbage.
* The C loops (`do_compact`, the scan in `mymalloc`, the marking loop in
  `reset_heap`) have no termination guarantee on corrupted chains, so each
  loop takes fuel; `none` means the loop did not finish within the fuel —
  in C the call would not have returned (hang / crash), so an execution
  trace simply stops there.
* Failure paths: the `aux_size > available_size` branch has an explicit
  `return NULL` after its assert, and the spec describes it as a failure
  result, so it is modelled as returning the null pointer `0` with the heap
  untouched.  Falling off the scan (`assert(tmp)` and then dereferencing a
  null `tmp`) has no defined result, so it is modelled as `none`.
-/

set_option maxRecDepth 2000

namespace MyMalloc

/-- Word modulus of the 64-bit platform (`uintptr_t` / `size_t`). -/
def W : Nat := 2 ^ 64

/-- `#define MY_ALIGNMENT_SZ (0x00000008)` -/
def MY_ALIGNMENT_SZ : Nat := 8

/-- `#define SZ_BLOCK_METADATA sizeof(allocHdr)` — one `void *`, 8 bytes. -/
def SZ_BLOCK_METADATA : Nat := 8

/-- Heap capacity requested from `sbrk` in `init_heap`. -/
def HEAP_SZ : Nat := 4096

/-- `#define ALIGN(_x) ((_x + MY_ALIGNMENT_SZ) & ~(MY_ALIGNMENT_SZ - 1))`
with the addition performed in `size_t`. `~(8 - 1)` over 64 bits is
`W - 8`. -/
def ALIGN (x : Nat) : Nat := Nat.land ((x + MY_ALIGNMENT_SZ) % W) (W - MY_ALIGNMENT_SZ)

/-- One block header (`allocHdr`): the stored word, split into the even
pointer part `next` and the low tag bit `inUse`. -/
structure Header where
  next : Nat
  inUse : Bool
deriving DecidableEq, Repr

/-- The header denoted by storing the raw pointer value `v` into
`hdr.next`: pointer part and tag bit of the word `v`. -/
def toHeader (v : Nat) : Header := ⟨v - v % 2, v % 2 == 1⟩

/-- `#define UNSET_INUSE(_x) (_x->hdr.next = (void *)((uintptr_t)_x->hdr.next & ~IN_USE_BIT))` -/
def UNSET_INUSE (h : Header) : Header := toHeader h.next

/-- `#define SET_INUSE(_x) (_x->hdr.next = (void *)((uintptr_t)_x->hdr.next | IN_USE_BIT))` -/
def SET_INUSE (h : Header) : Header := ⟨h.next - h.next % 2, true⟩

/-- `#define IS_INUSE(_x) (int)((uintptr_t)(_x->hdr.next) & IN_USE_BIT)` -/
def IS_INUSE (h : Header) : Bool := h.inUse

/-- `#define NEXT_ADDRESS(_x) (void *)(((uintptr_t) _x->hdr.next) & ~IN_USE_BIT)` -/
def NEXT_ADDRESS (h : Header) : Nat := h.next

/-- Memory: the header cell starting at each address. -/
abbrev Mem := Nat → Header

/-- `uintptr_t` subtraction `x - y` (wrap-around modulo `W`). -/
def usub (x y : Nat) : Nat := (x + (W - y % W)) % W

/-- `#define BLOCK_SIZE(_x) ((uintptr_t) NEXT_ADDRESS(_x) - (uintptr_t)&_x->start)`
where `&_x->start = _x + SZ_BLOCK_METADATA`.  Note: no special case for a
terminal (`next = NULL`) block — the subtraction wraps. -/
def BLOCK_SIZE (mem : Mem) (a : Nat) : Nat :=
  usub (NEXT_ADDRESS (mem a)) ((a + SZ_BLOCK_METADATA) % W)

/-- The `Heap` structure (`size`, `available_size`, `start_of_heap`) plus
the contents of memory. -/
structure Heap where
  size : Nat
  avail : Nat
  start : Nat
  mem : Mem

/-- The loop of `do_compact`:
`for (last = block; last && !IS_INUSE(last); last = NEXT_ADDRESS(last));`
returns the final value of `last`, or `none` if the fuel runs out (the C
loop would not terminate). -/
def compactFrom (mem : Mem) : Nat → Nat → Option Nat
  | 0, _ => none
  | fuel + 1, last =>
    if last ≠ 0 ∧ IS_INUSE (mem last) = false then
      compactFrom mem fuel (NEXT_ADDRESS (mem last))
    else
      some last

/-- `static void do_compact(allocation *block)`: run the loop, then
`block->hdr.next = last` (a pointer store, which also clears the tag
bit — `block` is free whenever the code calls this). -/
def do_compact (mem : Mem) (fuel : Nat) (block : Nat) : Option Mem :=
  (compactFrom mem fuel block).map fun last =>
    Function.update mem block (toHeader last)

/-- `static void init_heap(Heap *h)`: size and available = 4096, arena at
the address returned by `sbrk` (a parameter of the model), and one
terminal free header at the arena base. -/
def init_heap (sbrkAddr : Nat) (h : Heap) : Heap :=
  { size := HEAP_SZ, avail := HEAP_SZ, start := sbrkAddr,
    mem := Function.update h.mem sbrkAddr (toHeader 0) }

/-- The marking loop of `reset_heap`:
`for (tmp = _h.start_of_heap; tmp; tmp = NEXT_ADDRESS(tmp)) UNSET_INUSE(tmp);` -/
def resetLoop : Nat → Mem → Nat → Option Mem
  | 0, _, _ => none
  | fuel + 1, mem, tmp =>
    if tmp = 0 then some mem
    else
      let mem' := Function.update mem tmp (UNSET_INUSE (mem tmp))
      resetLoop fuel mem' (NEXT_ADDRESS (mem' tmp))

/-- `void reset_heap()`: mark every block free, then compact from the
arena base. -/
def reset_heap (fuel : Nat) (h : Heap) : Option Heap :=
  (resetLoop fuel h.mem h.start).bind fun m1 =>
    (do_compact m1 fuel h.start).map fun m2 => { h with mem := m2 }

/-- The search loop of `mymalloc`:
```
for (;tmp; tmp = NEXT_ADDRESS(tmp)) {
  if (!IS_INUSE(tmp)) {
    do_compact(tmp);
    if (BLOCK_SIZE(tmp) >= aux_size) break;
  }
}
```
Returns the memory after the on-the-fly compactions together with the
final value of `tmp` (`0` when the loop fell off the end of the chain). -/
def scanLoop (aux : Nat) : Nat → Mem → Nat → Option (Mem × Nat)
  | 0, _, _ => none
  | fuel + 1, mem, tmp =>
    if tmp = 0 then some (mem, 0)
    else if IS_INUSE (mem tmp) = true then
      scanLoop aux fuel mem (NEXT_ADDRESS (mem tmp))
    else
      match do_compact mem fuel tmp with
      | none => none
      | some mem' =>
        if BLOCK_SIZE mem' tmp ≥ aux then some (mem', tmp)
        else scanLoop aux fuel mem' (NEXT_ADDRESS (mem' tmp))

/-- The padded footprint `aux_size = ALIGN(size + SZ_BLOCK_METADATA)`
(`size_t` addition). -/
def auxOf (n : Nat) : Nat := ALIGN ((n + SZ_BLOCK_METADATA) % W)

/-- `void *mymalloc(size_t size)`.  Result: `none` when the call does not
return (fuel exhausted / fell off the chain), otherwise the new heap and
the returned pointer (`0` = NULL, the `available_size` failure). -/
def mymalloc (sbrkAddr : Nat) (fuel : Nat) (h : Heap) (n : Nat) :
    Option (Heap × Nat) :=
  let aux := auxOf n
  let h := if h.size = 0 then init_heap sbrkAddr h else h
  if aux > h.avail then
    some (h, 0)
  else
    match scanLoop aux fuel h.mem h.start with
    | none => none
    | some (_, 0) => none
    | some (mem', tmp) =>
      let m2 :=
        if BLOCK_SIZE mem' tmp ≥ aux + SZ_BLOCK_METADATA + ALIGN 1 then
          let tmp2 := (tmp + aux) % W
          -- tmp2->hdr.next = tmp->hdr.next
          let mA := Function.update mem' tmp2 (mem' tmp)
          -- UNSET_INUSE(tmp2)
          let mB := Function.update mA tmp2 (UNSET_INUSE (mA tmp2))
          -- tmp->hdr.next = tmp2
          Function.update mB tmp (toHeader tmp2)
        else mem'
      -- SET_INUSE(tmp)
      let m3 := Function.update m2 tmp (SET_INUSE (m2 tmp))
      some ({ size := h.size, avail := usub h.avail aux, start := h.start,
              mem := m3 },
            (tmp + SZ_BLOCK_METADATA) % W)

/-- `void myfree(void *ptr)`: no-op on NULL; otherwise recover the header
at `ptr - SZ_BLOCK_METADATA`, clear the in-use bit, compact forward. -/
def myfree (fuel : Nat) (h : Heap) (p : Nat) : Option Heap :=
  if p = 0 then some h
  else
    let tmp := usub p SZ_BLOCK_METADATA
    let m1 := Function.update h.mem tmp (UNSET_INUSE (h.mem tmp))
    (do_compact m1 fuel tmp).map fun m2 => { h with mem := m2 }

/-! ## Execution traces

A trace of well-behaved calls: allocations of arbitrary sizes, releases of
previously returned (still live) pointers, resets.  The ghost component
`live` records the pointers returned by `mymalloc` and not yet released or
reset, together with the padded footprint of their request. -/

/-- One external call.  `mfree i` releases the `i`-th live pointer (a
well-behaved caller only frees pointers it got from `mymalloc`); an
out-of-range index is a no-op. -/
inductive Op where
  | malloc (n : Nat)
  | mfree (i : Nat)
  | reset
deriving DecidableEq, Repr

/-- Heap plus the ghost list of live allocations `(pointer, footprint)`. -/
structure St where
  h : Heap
  live : List (Nat × Nat)

/-- Fuel used for every loop in a trace: far larger than the number of
blocks a 4096-byte arena can hold. -/
def FUEL : Nat := 4100

/-- Execute one call on a state. -/
def stepOp (sbrkAddr : Nat) (st : St) : Op → Option St
  | .malloc n =>
    (mymalloc sbrkAddr FUEL st.h n).map fun hp =>
      if hp.2 = 0 then { h := hp.1, live := st.live }
      else { h := hp.1, live := (hp.2, auxOf n) :: st.live }
  | .mfree i =>
    match st.live[i]? with
    | none => some st
    | some pa =>
      (myfree FUEL st.h pa.1).map fun h' =>
        { h := h', live := st.live.eraseIdx i }
  | .reset =>
    (reset_heap FUEL st.h).map fun h' => { h := h', live := [] }

/-- Run a list of calls from the freshly loaded process state: the global
`Heap _h` is zero-initialized (`size = 0`, null arena), memory holds
arbitrary garbage `g`. -/
def runAux (sbrkAddr : Nat) (st : St) : List Op → Option St
  | [] => some st
  | op :: ops =>
    match stepOp sbrkAddr st op with
    | none => none
    | some st' => runAux sbrkAddr st' ops

/-- Run a trace from the initial process state. -/
def runOps (sbrkAddr : Nat) (g : Mem) (ops : List Op) : Option St :=
  runAux sbrkAddr { h := { size := 0, avail := 0, start := 0, mem := g }, live := [] } ops

/-- The live allocations of a (possibly crashed) run. -/
def liveOf : Option St → List (Nat × Nat)
  | none => []
  | some st => st.live

/-- The block chain of a heap, read off by following `next` links (bounded
by fuel). -/
def chainList (mem : Mem) : Nat → Nat → List Nat
  | 0, _ => []
  | fuel + 1, a => if a = 0 then [] else a :: chainList mem fuel (NEXT_ADDRESS (mem a))

/-- The block chain of a heap with the standard trace fuel. -/
def theChain (h : Heap) : List Nat := chainList h.mem FUEL h.start

/-- `j`-fold iteration of the `next` reference from an address. -/
def nexts (mem : Mem) : Nat → Nat → Nat
  | 0, a => a
  | k + 1, a => nexts mem k (NEXT_ADDRESS (mem a))

/-- The four header stores of `mymalloc`'s splitting branch as one memory
transformation (`r` the chosen block, `t2` the split point). -/
def splitMem (m' : Mem) (r t2 : Nat) : Mem :=
  let mA := Function.update m' t2 (m' r)
  let mB := Function.update mA t2 (UNSET_INUSE (mA t2))
  let mC := Function.update mB r (toHeader t2)
  Function.update mC r (SET_INUSE (mC r))

/-! ## Invariant definitions for trace reasoning

The states reachable by well-behaved call traces are described by a chain
of block headers starting at the arena base, possibly followed (after the
`aux_size = 0` overflow corruption, which makes the split write a
self-loop) by orphaned blocks that are no longer reachable from the base
but whose headers are still intact. -/

/-- Consecutive chain elements are linked by `next` references. -/
def Links (mem : Mem) (c : List Nat) : Prop :=
  List.Chain' (fun x y => (mem x).next = y) c

/-- Ascending addresses with stride at least 8 (headers do not overlap). -/
def Asc8 (c : List Nat) : Prop := List.Pairwise (fun x y => x + 8 ≤ y) c

/-- The last chain element is either a well-formed terminal block (free;
its address plus the available counter stays inside the arena; no orphans)
or an in-use self-loop block left behind by the overflow corruption. -/
def EndOk (A avail : Nat) (mem : Mem) (e : Nat) (orph : List Nat) : Prop :=
  ((mem e).next = 0 ∧ (mem e).inUse = false ∧ e + avail ≤ A + HEAP_SZ ∧ orph = []) ∨
    ((mem e).next = e ∧ (mem e).inUse = true)

/-- Orphaned blocks: beyond the chain end, inside the arena, with `next`
references that are null, a frozen in-use self-loop, or a forward link to
another orphan. -/
def OrphOk (A : Nat) (mem : Mem) (e : Nat) (orph : List Nat) : Prop :=
  Asc8 orph ∧ ∀ o ∈ orph, e + 8 ≤ o ∧ o ≤ A + HEAP_SZ ∧ o % 8 = 0 ∧
    ((mem o).next = 0 ∨ ((mem o).next = o ∧ (mem o).inUse = true) ∨
      ((mem o).next ∈ orph ∧ o + 8 ≤ (mem o).next))

/-- Well-formed block structure of the arena. -/
def ChainOk (A avail : Nat) (mem : Mem) (c orph : List Nat) : Prop :=
  c.head? = some A ∧ Links mem c ∧ Asc8 c ∧
    (∀ x ∈ c, A ≤ x ∧ x ≤ A + HEAP_SZ ∧ x % 8 = 0) ∧
    ∃ e, c.getLast? = some e ∧ EndOk A avail mem e orph ∧ OrphOk A mem e orph

/-- Conditions on the ghost list of live allocations: distinct pointers,
each sitting just past an in-use header of the chain or the orphan
region, its padded footprint fitting before the following header, which
in turn is at or before every later block. -/
def LiveOk (mem : Mem) (c orph : List Nat) (live : List (Nat × Nat)) : Prop :=
  (live.map Prod.fst).Nodup ∧
    ∀ pa ∈ live, 8 ≤ pa.1 ∧ pa.1 % 8 = 0 ∧ pa.2 % 8 = 0 ∧ pa.2 ≤ HEAP_SZ ∧
      pa.1 - 8 ∈ c ++ orph ∧ (mem (pa.1 - 8)).inUse = true ∧
      pa.1 + pa.2 ≤ (mem (pa.1 - 8)).next + 8 ∧
      ∀ y ∈ c ++ orph, pa.1 - 8 < y → (mem (pa.1 - 8)).next ≤ y

/-- Invariant of an initialized heap state. -/
def InvI (A : Nat) (st : St) : Prop :=
  ∃ c orph, st.h.size = HEAP_SZ ∧ st.h.start = A ∧ st.h.avail ≤ HEAP_SZ ∧
    ChainOk A st.h.avail st.h.mem c orph ∧ LiveOk st.h.mem c orph st.live

/-- Trace invariant: either still uninitialized or initialized and
well-formed. -/
def Inv (A : Nat) (st : St) : Prop := (st.h.size = 0 ∧ st.live = []) ∨ InvI A st

/-- Conditions on the arena base address returned by `sbrk`: nonzero,
8-aligned (the bit-tagging requires even header addresses), comfortably
below the end of the address space. -/
def AOk (A : Nat) : Prop := 0 < A ∧ A % 8 = 0 ∧ A + 1048576 < W

/-- Outcome of marking (and possibly splitting) the chosen free block `r`:
a well-formed chain again, every in-use block kept untouched, `r` in use
with the padded footprint fitting before its next reference, which bounds
every later block; and the later-block bound survives for the blocks that
were already in use. -/
def MarkOut (A avail aux : Nat) (m1 m3 : Mem) (c2 orph : List Nat) (r : Nat) : Prop :=
  ∃ c3 orph3,
    ChainOk A (avail - aux) m3 c3 orph3 ∧
    (∀ x ∈ c2 ++ orph, (m1 x).inUse = true → x ∈ c3 ++ orph3 ∧ m3 x = m1 x) ∧
    (m3 r).inUse = true ∧ r ∈ c3 ++ orph3 ∧
    r + 8 + aux ≤ (m3 r).next + 8 ∧
    (∀ y ∈ c3 ++ orph3, r < y → (m3 r).next ≤ y) ∧
    (∀ x ∈ c2 ++ orph, (m1 x).inUse = true →
      (∀ y ∈ c2 ++ orph, x < y → (m1 x).next ≤ y) →
      ∀ y ∈ c3 ++ orph3, x < y → (m3 x).next ≤ y)

/-! Concrete memories and heaps used by the witnesses. -/

/-- All-terminal garbage memory. -/
def gZero : Mem := fun _ => toHeader 0

/-- Three-block memory: free blocks at 8192 and 8208, an in-use block at
8224. -/
def memA : Mem := fun a =>
  if a = 8192 then ⟨8208, false⟩
  else if a = 8208 then ⟨8224, false⟩
  else if a = 8224 then ⟨8240, true⟩
  else toHeader 0

/-- Two-block memory: an in-use block at 8192, a free terminal block at
8208. -/
def memB : Mem := fun a =>
  if a = 8192 then ⟨8208, true⟩
  else if a = 8208 then ⟨0, false⟩
  else toHeader 0

/-- The heap around `memB`. -/
def heapB : Heap := ⟨4096, 100, 8192, memB⟩

/-- The heap after releasing the pointer 8200 in `heapB`. -/
def heapB' : Heap :=
  ⟨4096, 100, 8192,
    Function.update
      (Function.update memB (usub 8200 SZ_BLOCK_METADATA)
        (UNSET_INUSE (memB (usub 8200 SZ_BLOCK_METADATA))))
      (usub 8200 SZ_BLOCK_METADATA) (toHeader 0)⟩

/-- One-block memory: a single free terminal block at 8192. -/
def memT : Mem := fun a => if a = 8192 then ⟨0, false⟩ else toHeader 0

/-- A freshly initialized heap around `memT`. -/
def heapT : Heap := ⟨4096, 4096, 8192, memT⟩

/-! ## Arithmetic bridges -/

theorem W_pos : 0 < W := by norm_num [W]

theorem land_mask8 (y : Nat) (hy : y < W) : Nat.land y (W - 8) = 8 * (y / 8) := by
  have hmask : W - 8 = (2 ^ 61 - 1) <<< 3 := by norm_num [W, Nat.shiftLeft_eq]
  have hdiv : 8 * (y / 8) = (y >>> 3) <<< 3 := by
    rw [Nat.shiftRight_eq_div_pow, Nat.shiftLeft_eq]
    norm_num [Nat.mul_comm]
  rw [hmask, hdiv]
  apply Nat.eq_of_testBit_eq
  intro i
  show Nat.testBit (y &&& ((2 ^ 61 - 1) <<< 3)) i = _
  rw [Nat.testBit_land, Nat.testBit_shiftLeft, Nat.testBit_shiftLeft,
    Nat.testBit_shiftRight, Nat.testBit_two_pow_sub_one]
  by_cases h3 : 3 ≤ i
  · by_cases h64 : i < 64
    · have : 3 + (i - 3) = i := by omega
      simp [ge_iff_le, h3, this, decide_eq_true_eq]
      intro _
      omega
    · have hfalse : y.testBit i = false := by
        apply Nat.testBit_eq_false_of_lt
        calc y < W := hy
        _ = 2 ^ 64 := rfl
        _ ≤ 2 ^ i := Nat.pow_le_pow_right (by norm_num) (by omega)
      have : 3 + (i - 3) = i := by omega
      simp [ge_iff_le, h3, this, hfalse]
  · simp [ge_iff_le, h3]

theorem ALIGN_eq (x : Nat) : ALIGN x = 8 * (((x + 8) % W) / 8) := by
  have h : (x + MY_ALIGNMENT_SZ) % W < W := Nat.mod_lt _ W_pos
  simpa [ALIGN, MY_ALIGNMENT_SZ] using land_mask8 ((x + 8) % W) h

theorem ALIGN_dvd (x : Nat) : 8 ∣ ALIGN x := ⟨_, ALIGN_eq x⟩

theorem ALIGN_one : ALIGN 1 = 8 := by
  rw [ALIGN_eq]
  norm_num [W]

theorem auxOf_eq (n : Nat) (h : n + 16 < W) : auxOf n = 8 * ((n + 16) / 8) := by
  have h8 : n + 8 < W := by omega
  rw [auxOf, SZ_BLOCK_METADATA, Nat.mod_eq_of_lt h8, ALIGN_eq, Nat.mod_eq_of_lt h]

theorem auxOf_dvd (n : Nat) : 8 ∣ auxOf n := ALIGN_dvd _

theorem auxOf_le_W (n : Nat) : auxOf n < W := by
  rw [auxOf, ALIGN_eq]
  have : ((n + SZ_BLOCK_METADATA) % W + 8) % W < W := Nat.mod_lt _ W_pos
  omega

theorem auxOf_ge_16 (n : Nat) (h : n + 16 < W) : 16 ≤ auxOf n := by
  rw [auxOf_eq n h]
  have : 2 ≤ (n + 16) / 8 := by
    apply Nat.le_div_iff_mul_le (by norm_num) |>.mpr
    omega
  omega

theorem usub_of_le {x y : Nat} (hyx : y ≤ x) (hx : x < W) : usub x y = x - y := by
  have hy : y % W = y := Nat.mod_eq_of_lt (lt_of_le_of_lt hyx hx)
  rw [usub, hy]
  have h1 : x + (W - y) = W + (x - y) := by omega
  rw [h1, Nat.add_mod_left, Nat.mod_eq_of_lt (by omega)]

theorem usub_zero_left {y : Nat} (hy0 : 0 < y) (hyW : y < W) : usub 0 y = W - y := by
  rw [usub, Nat.mod_eq_of_lt hyW, Nat.zero_add, Nat.mod_eq_of_lt (by omega)]

theorem toHeader_even {v : Nat} (h : v % 2 = 0) : toHeader v = ⟨v, false⟩ := by
  simp [toHeader, h]

theorem even_of_mod8 {v : Nat} (h : v % 8 = 0) : v % 2 = 0 := by omega

/-! ## Sizes derived by the allocator (claims C3, C7) -/

/-- **C3, counterexample.**  For a terminal block (`next = NULL`) the size
the allocator derives with `BLOCK_SIZE` is the wrapped value
`2^64 - (payload address)`, not the distance from the payload to the end
of the arena.  Concretely: a heap whose base block at `8192` is terminal
(arena `[8192, 8192 + 4096)`), where the distance to the arena end is
`4088` bytes but `BLOCK_SIZE` yields `2^64 - 8200`. -/
theorem blockSizeTerminalCex :
    BLOCK_SIZE (fun _ => toHeader 0) 8192 = W - 8200 ∧
      W - 8200 ≠ 8192 + HEAP_SZ - (8192 + SZ_BLOCK_METADATA) := by
  constructor
  · show usub (NEXT_ADDRESS (toHeader 0)) ((8192 + SZ_BLOCK_METADATA) % W) = W - 8200
    have h1 : NEXT_ADDRESS (toHeader 0) = 0 := rfl
    have h2 : (8192 + SZ_BLOCK_METADATA) % W = 8200 := by decide
    rw [h1, h2, usub_zero_left (by norm_num) (by norm_num [W])]
  · norm_num [W, HEAP_SZ, SZ_BLOCK_METADATA]

/-- **C3, amended.**  The size `mymalloc` tests against the request is
`BLOCK_SIZE`: for a block whose next reference is non-terminal (and sane),
it is the byte distance from the payload start to the next header; for a
terminal block it is the wrap-around value `2^64 - (block + 8)` — NOT the
distance to the end of the arena. -/
theorem blockSizeCharacterization (mem : Mem) (a : Nat) (ha : a + 8 < W) :
    ((mem a).next ≠ 0 → a + 8 ≤ (mem a).next → (mem a).next < W →
        BLOCK_SIZE mem a = (mem a).next - (a + 8)) ∧
      ((mem a).next = 0 → BLOCK_SIZE mem a = W - (a + 8)) := by
  have hmod : (a + SZ_BLOCK_METADATA) % W = a + 8 := by
    rw [SZ_BLOCK_METADATA, Nat.mod_eq_of_lt ha]
  constructor
  · intro _ hle hlt
    rw [BLOCK_SIZE, NEXT_ADDRESS, hmod, usub_of_le hle hlt]
  · intro h0
    rw [BLOCK_SIZE, NEXT_ADDRESS, h0, hmod, usub_zero_left (by omega) ha]

/-- Witness for `blockSizeCharacterization` at the terminal base block of
a fresh arena. -/
theorem blockSizeCharacterizationWitness :
    8192 + 8 < W ∧ BLOCK_SIZE (fun _ => toHeader 0) 8192 = W - (8192 + 8) := by
  refine ⟨by norm_num [W], ?_⟩
  exact (blockSizeCharacterization (fun _ => toHeader 0) 8192 (by norm_num [W])).2 rfl

/-- **C7, counterexample.**  The padded footprint is NOT always
`(n + 16)` rounded down to a multiple of 8: the `size_t` addition
`size + SZ_BLOCK_METADATA` (and the `+ 8` inside `ALIGN`) wrap, so the
request `n = 2^64 - 16` yields footprint `0` instead of `2^64`. -/
theorem auxOfOverflowCex :
    auxOf (2 ^ 64 - 16) = 0 ∧ 8 * (((2 ^ 64 - 16) + 16) / 8) = 2 ^ 64 := by
  constructor
  · have h1 : ((2 ^ 64 - 16) + SZ_BLOCK_METADATA) % W = 2 ^ 64 - 8 := by
      rw [SZ_BLOCK_METADATA]
      norm_num [W]
    rw [auxOf, h1, ALIGN_eq]
    norm_num [W]
  · norm_num

/-- **C7, amended.**  For every request `n`, the padded footprint is a
multiple of 8; when `n + 16` does not overflow `size_t` it equals
`(n + header size + one alignment unit)` rounded down to a multiple of 8,
and when `n + header size` is already a multiple of 8 the footprint is a
full extra unit beyond it. -/
theorem auxOfCharacterization (n : Nat) :
    8 ∣ auxOf n ∧
      (n + 16 < W →
        auxOf n = 8 * ((n + 16) / 8) ∧ (8 ∣ n + 8 → auxOf n = n + 8 + 8)) := by
  refine ⟨auxOf_dvd n, fun h => ⟨auxOf_eq n h, fun hdvd => ?_⟩⟩
  rw [auxOf_eq n h]
  obtain ⟨k, hk⟩ := hdvd
  omega

/-- Witness for `auxOfCharacterization`: request 16 (16 + 8 is a multiple
of 8) gets footprint 32 = 16 + 8 + 8. -/
theorem auxOfCharacterizationWitness :
    (16 + 16 < W ∧ (8:Nat) ∣ 16 + 8) ∧ auxOf 16 = 16 + 8 + 8 := by
  refine ⟨⟨by norm_num [W], by norm_num⟩, ?_⟩
  exact ((auxOfCharacterization 16).2 (by norm_num [W])).2 (by norm_num)

/-! ## The available-size check (claim C9) -/

/-- **C9.**  On an initialized heap, a request whose padded footprint
exceeds the available counter fails immediately: `mymalloc` returns NULL
with the heap — chain, counter, everything — unchanged, without scanning. -/
theorem mallocAvailFail (A fuel : Nat) (h : Heap) (n : Nat)
    (hinit : h.size ≠ 0) (hgt : auxOf n > h.avail) :
    mymalloc A fuel h n = some (h, 0) := by
  rw [mymalloc]
  simp only [hinit, if_false, if_pos hgt]

/-- Witness for `mallocAvailFail`: an initialized heap with counter 0
rejects a 1-byte request untouched. -/
theorem mallocAvailFailWitness :
    ((⟨4096, 0, 8192, fun _ => toHeader 0⟩ : Heap).size ≠ 0 ∧
        auxOf 1 > (⟨4096, 0, 8192, fun _ => toHeader 0⟩ : Heap).avail) ∧
      mymalloc 8192 4100 ⟨4096, 0, 8192, fun _ => toHeader 0⟩ 1 =
        some (⟨4096, 0, 8192, fun _ => toHeader 0⟩, 0) := by
  refine ⟨⟨by norm_num, ?_⟩, ?_⟩
  · show auxOf 1 > 0
    rw [auxOf_eq 1 (by norm_num [W])]
    norm_num
  · apply mallocAvailFail
    · norm_num
    · show auxOf 1 > 0
      rw [auxOf_eq 1 (by norm_num [W])]
      norm_num

/-! ## The available counter across operations (claim C4) -/

/-- **C4.**  `myfree` and `reset_heap` never change the available
counter; every successful allocation decrements it by the padded
footprint (on an initialized heap with a sane counter). -/
theorem availAccounting :
    (∀ fuel (h : Heap) p h', myfree fuel h p = some h' → h'.avail = h.avail) ∧
      (∀ fuel (h : Heap) h', reset_heap fuel h = some h' → h'.avail = h.avail) ∧
      (∀ A fuel (h : Heap) n h' p, h.size ≠ 0 → h.avail < W →
        mymalloc A fuel h n = some (h', p) → p ≠ 0 →
        auxOf n ≤ h.avail ∧ h'.avail = h.avail - auxOf n) := by
  refine ⟨?_, ?_, ?_⟩
  · intro fuel h p h' hrun
    rw [myfree] at hrun
    split at hrun
    · cases hrun
      rfl
    · rcases Option.map_eq_some'.mp hrun with ⟨m2, _, hc⟩
      cases hc
      rfl
  · intro fuel h h' hrun
    rw [reset_heap] at hrun
    rcases Option.bind_eq_some.mp hrun with ⟨m1, _, hmap⟩
    rcases Option.map_eq_some'.mp hmap with ⟨m2, _, hc⟩
    cases hc
    rfl
  · intro A fuel h n h' p hinit havail hrun hp
    rw [mymalloc] at hrun
    simp only [hinit, if_false] at hrun
    split at hrun
    · cases hrun
      exact absurd rfl hp
    · rename_i hle
      have hle' : auxOf n ≤ h.avail := by omega
      refine ⟨hle', ?_⟩
      split at hrun
      · exact absurd hrun (by simp)
      · exact absurd hrun (by simp)
      · rename_i mem' tmp _
        cases hrun
        exact usub_of_le hle' havail

/-- Witness for `availAccounting`: releasing the null pointer on a
concrete heap leaves the counter at its value 100. -/
theorem availAccountingWitness :
    myfree 4100 ⟨4096, 100, 8192, fun _ => toHeader 0⟩ 0 =
        some ⟨4096, 100, 8192, fun _ => toHeader 0⟩ ∧
      (⟨4096, 100, 8192, fun _ => toHeader 0⟩ : Heap).avail = 100 := by
  have hfree : myfree 4100 ⟨4096, 100, 8192, fun _ => toHeader 0⟩ 0 =
      some ⟨4096, 100, 8192, fun _ => toHeader 0⟩ := by
    rw [myfree]
    simp
  exact ⟨hfree, availAccounting.1 4100 _ 0 _ hfree⟩

/-! ## The coalescing walk (`do_compact`) -/

theorem nexts_succ (mem : Mem) (k a : Nat) :
    nexts mem (k + 1) a = nexts mem k (NEXT_ADDRESS (mem a)) := rfl

/-- A successful `compactFrom` walk follows `next` references through free
blocks and stops at the first terminal or in-use position. -/
theorem compactFrom_path (mem : Mem) :
    ∀ fuel a l, compactFrom mem fuel a = some l →
      ∃ k, nexts mem k a = l ∧ (l = 0 ∨ (mem l).inUse = true) ∧
        ∀ j < k, nexts mem j a ≠ 0 ∧ (mem (nexts mem j a)).inUse = false := by
  intro fuel
  induction fuel with
  | zero => intro a l h; exact absurd h (by simp [compactFrom])
  | succ fuel ih =>
    intro a l h
    rw [compactFrom] at h
    split at h
    · rename_i hcond
      obtain ⟨k, hk, hstop, hfree⟩ := ih _ _ h
      refine ⟨k + 1, hk, hstop, ?_⟩
      intro j hj
      cases j with
      | zero =>
        simpa [nexts, IS_INUSE] using hcond
      | succ j =>
        have := hfree j (by omega)
        simpa [nexts_succ] using this
    · rename_i hcond
      cases h
      refine ⟨0, rfl, ?_, by omega⟩
      simp only [not_and, ne_eq, not_not, IS_INUSE] at hcond
      by_cases h0 : a = 0
      · exact Or.inl h0
      · exact Or.inr (by simpa using hcond h0)

/-- A successful walk from a free non-null block needs at least two units
of fuel (it takes at least one step). -/
theorem compactFrom_fuel_ge_two (mem : Mem) (fuel a l : Nat)
    (ha : a ≠ 0) (hfree : (mem a).inUse = false)
    (h : compactFrom mem fuel a = some l) : 2 ≤ fuel := by
  match fuel with
  | 0 => exact absurd h (by simp [compactFrom])
  | 1 =>
    rw [compactFrom, if_pos ⟨ha, by simpa [IS_INUSE] using hfree⟩] at h
    exact absurd h (by simp [compactFrom])
  | n + 2 => omega

/-- A successful walk from a free non-null block stops at a value read
from some cell's `next` field. -/
theorem compactFrom_stop_is_next (mem : Mem) (fuel a l : Nat)
    (ha : a ≠ 0) (hfree : (mem a).inUse = false)
    (h : compactFrom mem fuel a = some l) : ∃ x, l = (mem x).next := by
  obtain ⟨k, hk, hstop, hpath⟩ := compactFrom_path mem fuel a l h
  match k with
  | 0 =>
    simp only [nexts] at hk
    subst hk
    rcases hstop with h0 | hu
    · exact absurd h0 ha
    · rw [hu] at hfree; cases hfree
  | k + 1 =>
    clear hstop hpath h
    subst hk
    clear ha hfree
    induction k generalizing a with
    | zero => exact ⟨a, rfl⟩
    | succ k ih => exact ih (NEXT_ADDRESS (mem a))

/-- **C5.**  For every free starting block, a terminating `do_compact`
repoints the block's next reference to the first in-use block reachable by
following next references (or to the null terminator if every following
position is free), and modifies no other header. -/
theorem doCompactSpec (mem : Mem) (fuel block : Nat) (m' : Mem)
    (hblock : block ≠ 0) (hfree : (mem block).inUse = false)
    (hrun : do_compact mem fuel block = some m') :
    ∃ k, 1 ≤ k ∧
      (∀ j, 1 ≤ j → j < k →
        nexts mem j block ≠ 0 ∧ (mem (nexts mem j block)).inUse = false) ∧
      (nexts mem k block = 0 ∨ (mem (nexts mem k block)).inUse = true) ∧
      m' = Function.update mem block (toHeader (nexts mem k block)) ∧
      (∀ x, x ≠ block → m' x = mem x) := by
  rw [do_compact] at hrun
  rcases Option.map_eq_some'.mp hrun with ⟨l, hcf, hm'⟩
  obtain ⟨k, hk, hstop, hpath⟩ := compactFrom_path mem fuel block l hcf
  have hk1 : 1 ≤ k := by
    rcases Nat.eq_zero_or_pos k with h0 | h1
    · subst h0
      simp only [nexts] at hk
      subst hk
      rcases hstop with h0 | hu
      · exact absurd h0 hblock
      · rw [hu] at hfree; cases hfree
    · exact h1
  subst hk
  refine ⟨k, hk1, fun j _ hj => hpath j hj, hstop, hm'.symm, ?_⟩
  intro x hx
  rw [← hm', Function.update_noteq hx]

/-- Witness for `doCompactSpec`: compacting from 8192 absorbs the free
block at 8208 and stops at the in-use block 8224. -/
theorem doCompactSpecWitness :
    ((8192 : Nat) ≠ 0 ∧ (memA 8192).inUse = false ∧
        do_compact memA 10 8192 =
          some (Function.update memA 8192 (toHeader 8224))) ∧
      ∃ k, 1 ≤ k ∧
        (∀ j, 1 ≤ j → j < k →
          nexts memA j 8192 ≠ 0 ∧ (memA (nexts memA j 8192)).inUse = false) ∧
        (nexts memA k 8192 = 0 ∨ (memA (nexts memA k 8192)).inUse = true) ∧
        Function.update memA 8192 (toHeader 8224) =
          Function.update memA 8192 (toHeader (nexts memA k 8192)) ∧
        (∀ x, x ≠ 8192 →
          Function.update memA 8192 (toHeader 8224) x = memA x) := by
  have hrun : do_compact memA 10 8192 =
      some (Function.update memA 8192 (toHeader 8224)) := by
    rw [do_compact]
    have hwalk : compactFrom memA 10 8192 = some 8224 := by
      rw [compactFrom]
      rw [if_pos ⟨by norm_num, by norm_num [memA, IS_INUSE]⟩]
      rw [show NEXT_ADDRESS (memA 8192) = 8208 by norm_num [memA, NEXT_ADDRESS]]
      rw [compactFrom]
      rw [if_pos ⟨by norm_num, by norm_num [memA, IS_INUSE]⟩]
      rw [show NEXT_ADDRESS (memA 8208) = 8224 by norm_num [memA, NEXT_ADDRESS]]
      rw [compactFrom]
      rw [if_neg (by norm_num [memA, IS_INUSE])]
    rw [hwalk]
    rfl
  exact ⟨⟨by norm_num, by norm_num [memA], hrun⟩,
    doCompactSpec memA 10 8192 _ (by norm_num) (by norm_num [memA]) hrun⟩

/-! ## Double release (claim C10) -/

/-- **C10.**  Releasing the same pointer twice in succession leaves the
heap in exactly the state produced by the first release.  The hypothesis
`heven` is the representation invariant of the header encoding: every
stored next word has a clear low bit after masking, which holds in every
state the program can construct. -/
theorem doubleFreeIdempotent (fuel : Nat) (h : Heap) (p : Nat) (h' : Heap)
    (heven : ∀ a, (h.mem a).next % 2 = 0)
    (hrun : myfree fuel h p = some h') : myfree fuel h' p = some h' := by
  rw [myfree] at hrun
  split at hrun
  · rename_i hp0
    cases hrun
    rw [myfree, if_pos hp0]
  · rename_i hp0
    rcases Option.map_eq_some'.mp hrun with ⟨m2, hdc, hh'⟩
    rw [do_compact] at hdc
    rcases Option.map_eq_some'.mp hdc with ⟨l, hcf, hm2⟩
    have hf0 : fuel ≠ 0 := by
      rintro rfl
      exact absurd hcf (by simp [compactFrom])
    -- abbreviations
    have hm2tmp : m2 (usub p SZ_BLOCK_METADATA) = toHeader l := by
      rw [← hm2, Function.update_same]
    have hm1even : ∀ a,
        ((Function.update h.mem (usub p SZ_BLOCK_METADATA)
            (UNSET_INUSE (h.mem (usub p SZ_BLOCK_METADATA)))) a).next % 2 = 0 := by
      intro a
      by_cases hx : a = usub p SZ_BLOCK_METADATA
      · rw [hx, Function.update_same]
        show ((h.mem (usub p SZ_BLOCK_METADATA)).next -
          (h.mem (usub p SZ_BLOCK_METADATA)).next % 2) % 2 = 0
        omega
      · rw [Function.update_noteq hx]
        exact heven a
    have hm1free : ((Function.update h.mem (usub p SZ_BLOCK_METADATA)
        (UNSET_INUSE (h.mem (usub p SZ_BLOCK_METADATA))))
          (usub p SZ_BLOCK_METADATA)).inUse = false := by
      rw [Function.update_same]
      show ((h.mem (usub p SZ_BLOCK_METADATA)).next % 2 == 1) = false
      simp [heven (usub p SZ_BLOCK_METADATA)]
    have hleven : l % 2 = 0 := by
      by_cases htmp0 : usub p SZ_BLOCK_METADATA = 0
      · obtain ⟨f1, rfl⟩ : ∃ f1, fuel = f1 + 1 := ⟨fuel - 1, by omega⟩
        rw [htmp0, compactFrom] at hcf
        simp at hcf
        omega
      · obtain ⟨x, hx⟩ :=
          compactFrom_stop_is_next _ fuel _ l htmp0 hm1free hcf
        rw [hx]
        exact hm1even x
    have hsub : l - l % 2 = l := by omega
    have hunset : UNSET_INUSE (m2 (usub p SZ_BLOCK_METADATA)) = toHeader l := by
      rw [hm2tmp]
      show toHeader (l - l % 2) = toHeader l
      rw [hsub]
    have hupd : Function.update m2 (usub p SZ_BLOCK_METADATA) (toHeader l) = m2 := by
      rw [← hm2, Function.update_idem]
    -- the second walk stops at l again
    have hcf2 : compactFrom m2 fuel (usub p SZ_BLOCK_METADATA) = some l := by
      by_cases htmp0 : usub p SZ_BLOCK_METADATA = 0
      · obtain ⟨f1, rfl⟩ : ∃ f1, fuel = f1 + 1 := ⟨fuel - 1, by omega⟩
        rw [htmp0, compactFrom] at hcf
        simp at hcf
        rw [htmp0, compactFrom]
        simp
        omega
      · have hstop : l = 0 ∨ ((Function.update h.mem (usub p SZ_BLOCK_METADATA)
            (UNSET_INUSE (h.mem (usub p SZ_BLOCK_METADATA)))) l).inUse = true :=
          (compactFrom_path _ fuel _ l hcf).choose_spec.2.1
        have hfuel2 : 2 ≤ fuel :=
          compactFrom_fuel_ge_two _ fuel _ l htmp0 hm1free hcf
        have hltmp : l ≠ usub p SZ_BLOCK_METADATA := by
          intro he
          rcases hstop with h0 | hu
          · exact htmp0 (he ▸ h0)
          · rw [he, hm1free] at hu
            cases hu
        obtain ⟨f2, rfl⟩ : ∃ f2, fuel = f2 + 2 := ⟨fuel - 2, by omega⟩
        rw [compactFrom]
        have hfree2 : IS_INUSE (m2 (usub p SZ_BLOCK_METADATA)) = false := by
          rw [IS_INUSE, hm2tmp]
          show (l % 2 == 1) = false
          simp [hleven]
        rw [if_pos ⟨htmp0, hfree2⟩]
        have hnext2 : NEXT_ADDRESS (m2 (usub p SZ_BLOCK_METADATA)) = l := by
          rw [NEXT_ADDRESS, hm2tmp]
          exact hsub
        rw [hnext2]
        rcases hstop with h0 | hu
        · rw [h0, compactFrom]
          simp
        · rw [compactFrom]
          have hl2 : (m2 l).inUse = true := by
            rw [← hm2, Function.update_noteq hltmp]
            exact hu
          rw [if_neg (by simp [IS_INUSE, hl2])]
    -- assemble the second call
    subst hh'
    rw [myfree, if_neg hp0]
    show (do_compact (Function.update m2 (usub p SZ_BLOCK_METADATA)
          (UNSET_INUSE (m2 (usub p SZ_BLOCK_METADATA)))) fuel
            (usub p SZ_BLOCK_METADATA)).map
        (fun mm =>
          ({ size := h.size, avail := h.avail, start := h.start, mem := mm } : Heap)) =
      some { size := h.size, avail := h.avail, start := h.start, mem := m2 }
    rw [hunset, hupd, do_compact, hcf2]
    simp only [Option.map_some']
    rw [← hm2, Function.update_idem]

/-- Witness for `doubleFreeIdempotent`: releasing 8200 twice on `heapB`
gives the same heap as releasing it once. -/
theorem doubleFreeIdempotentWitness :
    ((∀ a, (heapB.mem a).next % 2 = 0) ∧ myfree 10 heapB 8200 = some heapB') ∧
      myfree 10 heapB' 8200 = some heapB' := by
  have heven : ∀ a, (heapB.mem a).next % 2 = 0 := by
    intro a
    show (memB a).next % 2 = 0
    simp only [memB]
    split
    · rfl
    · split
      · rfl
      · rfl
  have hrun : myfree 10 heapB 8200 = some heapB' := by rfl
  exact ⟨⟨heven, hrun⟩, doubleFreeIdempotent 10 heapB 8200 heapB' heven hrun⟩

/-! ## Reset and the drifting counter (claim C2) -/

/-- **C2 fails on the code.**  The padded footprint 4088 equals the full
original capacity minus one block header, and on a fresh heap the request
`mymalloc(4072)` succeeds; but after the history `mymalloc(10); reset_heap()`
— where `reset_heap` collapses the arena back to a single free block but
does not restore the available counter — the very same request returns
NULL (`live` stays empty and the counter stays at 4072 < 4088), although
the whole arena is free. -/
theorem resetFullCapacityBug :
    auxOf 4072 = HEAP_SZ - SZ_BLOCK_METADATA ∧
      (runOps 8192 (fun _ => toHeader 0) [.malloc 4072]).map
          (fun st => (st.h.avail, st.live.map Prod.snd)) = some (8, [4088]) ∧
      (runOps 8192 (fun _ => toHeader 0) [.malloc 10, .reset]).map
          (fun st => (st.h.avail, theChain st.h, st.live)) =
        some (4072, [8192], []) ∧
      (runOps 8192 (fun _ => toHeader 0) [.malloc 10, .reset, .malloc 4072]).map
          (fun st => (st.h.avail, st.live)) = some (4072, []) := by
  refine ⟨by decide, by decide, by decide, by decide⟩

/-! ## Splitting the chosen block (claim C8) -/

/-- **C8.**  When the scan selects block `r`, the allocation splits it if
and only if its derived size is at least the padded footprint plus one
header plus one alignment unit (`ALIGN 1 = 8`).  On a split, a new free
header carrying the chosen block's old next reference is written at
`r + footprint`, the chosen block's next reference is pointed at the new
block, and no other header changes; otherwise the block is handed over
unshrunk (only its in-use bit is set).  The evenness hypotheses are the
representation invariant of the header encoding. -/
theorem UNSET_even {hd : Header} (h : hd.next % 2 = 0) :
    UNSET_INUSE hd = ⟨hd.next, false⟩ := by
  simp [UNSET_INUSE, toHeader, h]

theorem SET_even {hd : Header} (h : hd.next % 2 = 0) :
    SET_INUSE hd = ⟨hd.next, true⟩ := by
  simp [SET_INUSE, h]

theorem SET_toHeader {v : Nat} (h : v % 2 = 0) :
    SET_INUSE (toHeader v) = ⟨v, true⟩ := by
  simp [SET_INUSE, toHeader, h]

/-- The split-branch memory transformation: the chosen block `r` ends up
in-use pointing at `t2`, the new block `t2` (when distinct from `r`) is
free and carries `r`'s old next reference, and nothing else changes. -/
theorem splitMem_spec (m' : Mem) (r t2 : Nat)
    (hneven : (m' r).next % 2 = 0) (ht2even : t2 % 2 = 0) :
    splitMem m' r t2 r = ⟨t2, true⟩ ∧
      (t2 ≠ r → splitMem m' r t2 t2 = ⟨(m' r).next, false⟩) ∧
      (∀ x, x ≠ r → x ≠ t2 → splitMem m' r t2 x = m' x) := by
  simp only [splitMem]
  refine ⟨?_, fun hne => ?_, fun x hx hx2 => ?_⟩
  · rw [Function.update_same, Function.update_same, SET_toHeader ht2even]
  · rw [Function.update_noteq hne, Function.update_noteq hne,
      Function.update_same, Function.update_same,
      UNSET_even hneven]
  · rw [Function.update_noteq hx, Function.update_noteq hx,
      Function.update_noteq hx2, Function.update_noteq hx2]

/-- **C8.**  When the scan selects block `r`, the allocation splits it if
and only if its derived size is at least the padded footprint plus one
header plus one alignment unit (`ALIGN 1 = 8`).  On a split, a new free
header carrying the chosen block's old next reference is written at
`r + footprint`, the chosen block's next reference is pointed at the new
block, and no other header changes; otherwise the block is handed over
unshrunk (only its in-use bit is set).  The evenness hypotheses are the
representation invariant of the header encoding. -/
theorem mallocSplitCharacterization
    (A fuel : Nat) (h : Heap) (n : Nat) (m' : Mem) (r : Nat) (h' : Heap) (p : Nat)
    (hsz : h.size ≠ 0)
    (havail : ¬ auxOf n > h.avail)
    (hscan : scanLoop (auxOf n) fuel h.mem h.start = some (m', r))
    (hr : r ≠ 0) (hreven : r % 2 = 0) (hneven : (m' r).next % 2 = 0)
    (hrun : mymalloc A fuel h n = some (h', p)) :
    p = (r + SZ_BLOCK_METADATA) % W ∧
      (BLOCK_SIZE m' r ≥ auxOf n + SZ_BLOCK_METADATA + ALIGN 1 →
        h'.mem r = ⟨(r + auxOf n) % W, true⟩ ∧
        ((r + auxOf n) % W ≠ r →
          h'.mem ((r + auxOf n) % W) = ⟨(m' r).next, false⟩) ∧
        (∀ x, x ≠ r → x ≠ (r + auxOf n) % W → h'.mem x = m' x)) ∧
      (¬ BLOCK_SIZE m' r ≥ auxOf n + SZ_BLOCK_METADATA + ALIGN 1 →
        h'.mem r = ⟨(m' r).next, true⟩ ∧ ∀ x, x ≠ r → h'.mem x = m' x) := by
  obtain ⟨r', rfl⟩ : ∃ r', r = r' + 1 := ⟨r - 1, by omega⟩
  rw [mymalloc] at hrun
  simp only [hsz, if_false, if_neg havail, hscan] at hrun
  -- evenness of the split point
  have ht2even : (r' + 1 + auxOf n) % W % 2 = 0 := by
    rw [Nat.mod_mod_of_dvd _ (show (2:ℕ) ∣ W by norm_num [W])]
    obtain ⟨k, hk⟩ := auxOf_dvd n
    omega
  split at hrun
  · -- split case
    rename_i hbig
    cases hrun
    have hs := splitMem_spec m' (r' + 1) ((r' + 1 + auxOf n) % W) hneven ht2even
    exact ⟨rfl, fun _ => ⟨hs.1, hs.2.1, hs.2.2⟩, fun hnot => absurd hbig hnot⟩
  · -- no-split case
    rename_i hsmall
    cases hrun
    refine ⟨rfl, fun hbig => absurd hbig hsmall, fun _ => ⟨?_, fun x hx => ?_⟩⟩
    · show (Function.update m' (r' + 1) (SET_INUSE (m' (r' + 1)))) (r' + 1) = _
      rw [Function.update_same, SET_even hneven]
    · show (Function.update m' (r' + 1) (SET_INUSE (m' (r' + 1)))) x = m' x
      rw [Function.update_noteq hx]

/-- Witness for `mallocSplitCharacterization`: a 10-byte request on the
fresh one-block heap splits the terminal block at 8192, pointing it at the
new free block 8216 and returning the payload address 8200. -/
theorem mallocSplitCharacterizationWitness :
    ∃ h' p, mymalloc 8192 10 heapT 10 = some (h', p) ∧
      p = (8192 + SZ_BLOCK_METADATA) % W ∧
      h'.mem 8192 = ⟨(8192 + auxOf 10) % W, true⟩ ∧
      h'.mem ((8192 + auxOf 10) % W) =
        ⟨((Function.update memT 8192 (toHeader 0)) 8192).next, false⟩ := by
  have hscan : scanLoop (auxOf 10) 10 heapT.mem heapT.start =
      some (Function.update memT 8192 (toHeader 0), 8192) := by rfl
  obtain ⟨h', p, hrun⟩ : ∃ h' p, mymalloc 8192 10 heapT 10 = some (h', p) :=
    ⟨_, _, rfl⟩
  have hc := mallocSplitCharacterization 8192 10 heapT 10 _ 8192 h' p
    (by norm_num [heapT]) (by decide) hscan (by norm_num) (by norm_num)
    (by decide) hrun
  have hbig : BLOCK_SIZE (Function.update memT 8192 (toHeader 0)) 8192 ≥
      auxOf 10 + SZ_BLOCK_METADATA + ALIGN 1 := by decide
  exact ⟨h', p, hrun, hc.1, (hc.2.1 hbig).1, (hc.2.1 hbig).2.1 (by decide)⟩

/-! ## List utilities for the chain invariant -/

theorem Asc8.nodup {c : List Nat} (h : Asc8 c) : c.Nodup :=
  h.imp (by omega)

theorem Asc8.rel {c : List Nat} (h : Asc8 c) {x y : Nat}
    (hx : x ∈ c) (hy : y ∈ c) (hlt : x < y) : x + 8 ≤ y := by
  induction c with
  | nil => cases hx
  | cons a c ih =>
    rcases List.pairwise_cons.mp h with ⟨ha, hc⟩
    rcases List.mem_cons.mp hx with rfl | hx'
    · rcases List.mem_cons.mp hy with rfl | hy'
      · omega
      · exact ha y hy'
    · rcases List.mem_cons.mp hy with rfl | hy'
      · have := ha x hx'
        omega
      · exact ih hc hx' hy'

theorem Asc8.le_getLast {c : List Nat} (h : Asc8 c) {e x : Nat}
    (he : c.getLast? = some e) (hx : x ∈ c) : x ≤ e := by
  induction c with
  | nil => cases hx
  | cons a c ih =>
    rcases List.pairwise_cons.mp h with ⟨ha, hc⟩
    rcases c with _ | ⟨b, c'⟩
    · simp at he hx
      omega
    · rw [List.getLast?_cons_cons] at he
      rcases List.mem_cons.mp hx with rfl | hx'
      · have hemem : e ∈ b :: c' := by
          have : (b :: c').getLast ((by simp) : b :: c' ≠ []) = e := by
            rw [List.getLast?_eq_getLast _ ((by simp) : b :: c' ≠ [])] at he
            exact Option.some.inj he
          rw [← this]
          exact List.getLast_mem _
        have := ha e hemem
        omega
      · exact ih hc he hx'

theorem getLast?_mem' {c : List Nat} {e : Nat} (he : c.getLast? = some e) :
    e ∈ c := by
  rcases c with _ | ⟨a, c⟩
  · simp at he
  · rw [List.getLast?_eq_getLast _ ((by simp) : a :: c ≠ [])] at he
    rw [← Option.some.inj he]
    exact List.getLast_mem _

theorem getLast?_append_right {l1 l2 : List Nat} (h : l2 ≠ []) :
    (l1 ++ l2).getLast? = l2.getLast? := by
  rw [List.getLast?_append]
  obtain ⟨x, hx⟩ : ∃ x, l2.getLast? = some x := by
    rw [List.getLast?_eq_getLast _ h]
    exact ⟨_, rfl⟩
  rw [hx]
  rfl

theorem links_congr {mem mem' : Mem} {c : List Nat}
    (hagree : ∀ x ∈ c, mem' x = mem x) (h : Links mem c) : Links mem' c := by
  induction c with
  | nil => exact List.chain'_nil
  | cons a c ih =>
    rcases c with _ | ⟨b, c'⟩
    · simp [Links]
    · rw [Links, List.chain'_cons] at h ⊢
      refine ⟨?_, ih (fun x hx => hagree x (List.mem_cons_of_mem _ hx)) h.2⟩
      rw [hagree a (List.mem_cons_self _ _)]
      exact h.1

theorem compactFrom_step {mem : Mem} {fuel b : Nat}
    (hb : b ≠ 0) (hfree : (mem b).inUse = false) :
    compactFrom mem (fuel + 1) b = compactFrom mem fuel (mem b).next := by
  rw [compactFrom, if_pos ⟨hb, by simp [IS_INUSE, hfree]⟩]
  rfl

theorem compactFrom_halt {mem : Mem} {fuel b : Nat}
    (h : b = 0 ∨ (mem b).inUse = true) :
    compactFrom mem (fuel + 1) b = some b := by
  rw [compactFrom, if_neg]
  rintro ⟨hb, hfree⟩
  rcases h with h0 | hu
  · exact hb h0
  · rw [IS_INUSE, hu] at hfree
    cases hfree

theorem compactFrom_some_fuel {mem : Mem} {fuel b l : Nat}
    (h : compactFrom mem fuel b = some l) : fuel ≠ 0 := by
  rintro rfl
  exact absurd h (by simp [compactFrom])

/-- Decomposition of a successful coalescing walk along a linked suffix
`b :: c2` whose last element is terminal or an in-use self-loop: the walk
skips a free prefix `mid` of `c2` and stops at the head of `post` (which
is in use) or at the null terminator. -/
theorem walk_decompose (mem : Mem) :
    ∀ (c2 : List Nat) (b fuel l : Nat),
      b ≠ 0 → (mem b).inUse = false →
      Links mem (b :: c2) →
      (∀ x ∈ c2, x ≠ 0) →
      (∀ e, (b :: c2).getLast? = some e →
        (mem e).next = 0 ∨ ((mem e).next = e ∧ (mem e).inUse = true)) →
      compactFrom mem fuel b = some l →
      ∃ mid post, c2 = mid ++ post ∧ (∀ x ∈ mid, (mem x).inUse = false) ∧
        ((∃ s, post.head? = some s ∧ l = s ∧ (mem s).inUse = true) ∨
          (post = [] ∧ l = 0)) := by
  intro c2
  induction c2 with
  | nil =>
    intro b fuel l hb hfree _ _ hend hcf
    have hnext0 : (mem b).next = 0 := by
      rcases hend b (by simp) with h0 | hloop
      · exact h0
      · rw [hloop.2] at hfree
        cases hfree
    obtain ⟨f1, rfl⟩ : ∃ f1, fuel = f1 + 1 :=
      ⟨fuel - 1, by have := compactFrom_some_fuel hcf; omega⟩
    rw [compactFrom_step hb hfree, hnext0] at hcf
    obtain ⟨f2, rfl⟩ : ∃ f2, f1 = f2 + 1 :=
      ⟨f1 - 1, by have := compactFrom_some_fuel hcf; omega⟩
    rw [compactFrom_halt (Or.inl rfl)] at hcf
    exact ⟨[], [], rfl, by simp, Or.inr ⟨rfl, (Option.some.inj hcf).symm⟩⟩
  | cons s c2' ih =>
    intro b fuel l hb hfree hlinks hzero hend hcf
    have hbs : (mem b).next = s := (List.chain'_cons.mp hlinks).1
    have hlinks' : Links mem (s :: c2') := (List.chain'_cons.mp hlinks).2
    obtain ⟨f1, rfl⟩ : ∃ f1, fuel = f1 + 1 :=
      ⟨fuel - 1, by have := compactFrom_some_fuel hcf; omega⟩
    rw [compactFrom_step hb hfree, hbs] at hcf
    by_cases hs : (mem s).inUse = true
    · obtain ⟨f2, rfl⟩ : ∃ f2, f1 = f2 + 1 :=
        ⟨f1 - 1, by have := compactFrom_some_fuel hcf; omega⟩
      rw [compactFrom_halt (Or.inr hs)] at hcf
      exact ⟨[], s :: c2', rfl, by simp,
        Or.inl ⟨s, rfl, (Option.some.inj hcf).symm, hs⟩⟩
    · have hsfree : (mem s).inUse = false := by
        cases hval : (mem s).inUse
        · rfl
        · exact absurd hval hs
      have hs0 : s ≠ 0 := hzero s (by simp)
      obtain ⟨mid, post, hdec, hmidfree, hstop⟩ :=
        ih s f1 l hs0 hsfree hlinks' (fun x hx => hzero x (by simp [hx]))
          (fun e he => hend e (by rw [List.getLast?_cons_cons]; exact he)) hcf
    -- prepend s to the free prefix
      exact ⟨s :: mid, post, by rw [hdec]; rfl, by
        intro x hx
        rcases List.mem_cons.mp hx with rfl | hx'
        · exact hsfree
        · exact hmidfree x hx', hstop⟩

/-- Effect of `do_compact` at a free chain block `b`: the free run after
`b` is absorbed, the chain stays well formed, and only `b`'s header
changes. -/
theorem compact_at {A avail : Nat} {mem : Mem} {orph c1 c2 : List Nat}
    {b fuel : Nat} {m1 : Mem}
    (hA : 0 < A)
    (hchain : ChainOk A avail mem (c1 ++ b :: c2) orph)
    (hfree : (mem b).inUse = false)
    (hdc : do_compact mem fuel b = some m1) :
    ∃ mid post,
      c2 = mid ++ post ∧ (∀ x ∈ mid, (mem x).inUse = false) ∧
      ChainOk A avail m1 (c1 ++ b :: post) orph ∧
      (∀ x, x ≠ b → m1 x = mem x) ∧
      m1 b = ⟨(post.head?).getD 0, false⟩ ∧
      (∀ s, post.head? = some s → (mem s).inUse = true) := by
  obtain ⟨hhead, hlinks, hasc, hbounds, e, hlast, hend, horphA, horphB⟩ := hchain
  have hnodup : (c1 ++ b :: c2).Nodup := hasc.nodup
  have hbmem : b ∈ c1 ++ b :: c2 := by simp
  have hb0 : b ≠ 0 := by
    have := (hbounds b hbmem).1
    omega
  have hbnotc1 : b ∉ c1 := by
    intro hin
    exact (List.nodup_append.mp hnodup).2.2 hin (by simp)
  have hbnotc2 : b ∉ c2 := by
    have := (List.nodup_append.mp hnodup).2.1
    rw [List.nodup_cons] at this
    exact this.1
  have hl1 : List.Chain' (fun x y => (mem x).next = y) c1 :=
    (List.chain'_append.mp hlinks).1
  have hl2 : Links mem (b :: c2) := (List.chain'_append.mp hlinks).2.1
  have hcross : ∀ x ∈ c1.getLast?, ∀ y ∈ (b :: c2).head?, (mem x).next = y :=
    (List.chain'_append.mp hlinks).2.2
  have hlastS : (b :: c2).getLast? = some e := by
    rw [List.getLast?_append] at hlast
    obtain ⟨e', he'⟩ : ∃ e', (b :: c2).getLast? = some e' := by
      rw [List.getLast?_eq_getLast _ ((by simp) : b :: c2 ≠ [])]
      exact ⟨_, rfl⟩
    rw [he'] at hlast
    simp at hlast
    rw [he', hlast]
  -- run the walk decomposition
  rw [do_compact] at hdc
  rcases Option.map_eq_some'.mp hdc with ⟨l, hcf, hm1⟩
  obtain ⟨mid, post, hdecomp, hmidfree, hstop⟩ :=
    walk_decompose mem c2 b fuel l hb0 hfree hl2
      (fun x hx => by
        have := (hbounds x (by simp [hx])).1
        omega)
      (fun e' he' => by
        rw [hlastS] at he'
        cases Option.some.inj he'
        rcases hend with hterm | hloop
        · exact Or.inl hterm.1
        · exact Or.inr ⟨hloop.1, hloop.2⟩)
      hcf
  have hleven : l % 2 = 0 := by
    rcases hstop with ⟨s, hh, heq, _⟩ | ⟨_, heq⟩
    · have hsmem : s ∈ post := by
        rcases post with _ | ⟨p0, post'⟩
        · simp at hh
        · have hp0 : p0 = s := by simpa using hh
          rw [← hp0]
          simp
      have hsc2 : s ∈ c2 := by
        rw [hdecomp]
        simp [hsmem]
      have := (hbounds s (by simp [hsc2])).2.2
      omega
    · omega
  have hm1b : m1 b = ⟨(post.head?).getD 0, false⟩ := by
    rw [← hm1, Function.update_same, toHeader_even hleven]
    rcases hstop with ⟨s, hh, heq, _⟩ | ⟨hpost, heq⟩
    · rw [hh, heq]
      rfl
    · rw [hpost, heq]
      rfl
  have hframe : ∀ x, x ≠ b → m1 x = mem x := by
    intro x hx
    rw [← hm1, Function.update_noteq hx]
  have hposts : ∀ s, post.head? = some s → (mem s).inUse = true := by
    intro s hs
    rcases hstop with ⟨s', hh, heq, hsu⟩ | ⟨hpost, heq⟩
    · rw [hh] at hs
      cases Option.some.inj hs
      exact hsu
    · rw [hpost] at hs
      simp at hs
  have hpostc2 : ∀ x ∈ post, x ∈ c2 := by
    intro x hx
    rw [hdecomp]
    simp [hx]
  -- the new chain is a sublist of the old one
  have hsubl : (c1 ++ b :: post).Sublist (c1 ++ b :: c2) := by
    rw [hdecomp]
    exact List.Sublist.append_left
      (List.Sublist.cons₂ b (List.sublist_append_right mid post)) c1
  refine ⟨mid, post, hdecomp, hmidfree, ?_, hframe, hm1b, hposts⟩
  refine ⟨?_, ?_, ?_, ?_, ?_⟩
  · -- head
    rw [List.head?_append] at hhead ⊢
    simpa using hhead
  · -- links
    rw [Links, List.chain'_append]
    refine ⟨?_, ?_, ?_⟩
    · apply links_congr (fun x hx => hframe x (fun hxb => hbnotc1 (hxb ▸ hx))) hl1
    · rcases post with _ | ⟨p0, post'⟩
      · exact List.chain'_singleton b
      · rw [List.chain'_cons]
      -- link from b to the stop block, then the old links of post
        constructor
        · rw [hm1b]
          rfl
        · have hlpost : Links mem (p0 :: post') := by
            have hlc2 : Links mem c2 := hl2.tail
            rw [hdecomp, Links] at hlc2
            exact (List.chain'_append.mp hlc2).2.1
          apply links_congr ?_ hlpost
          intro x hx
          exact hframe x (fun hxb => hbnotc2 (hxb ▸ hpostc2 x hx))
    · intro x hx y hy
      simp at hy
      rw [← hy]
      have hxmem : x ∈ c1 := getLast?_mem' hx
      rw [hframe x (fun hxb => hbnotc1 (hxb ▸ hxmem))]
      exact hcross x hx b (by simp)
  · -- ascending
    exact List.Pairwise.sublist hsubl hasc
  · -- bounds
    intro x hx
    exact hbounds x (hsubl.subset hx)
  · -- end of the chain
    rcases post with _ | ⟨p0, post'⟩
    · -- the walk fell off a fully free tail: b is the new terminal block
      refine ⟨b, by rw [List.getLast?_concat], ?_, ?_⟩
      · -- the old end must have been a terminal because everything in
        -- b :: c2 is free
        have hefree : (mem e).inUse = false := by
          have hemem : e ∈ b :: c2 := getLast?_mem' hlastS
          rcases List.mem_cons.mp hemem with rfl | hec2
          · exact hfree
          · rw [hdecomp] at hec2
            simp at hec2
            exact hmidfree e hec2
        rcases hend with hterm | hloop
        · refine Or.inl ⟨?_, ?_, ?_, hterm.2.2.2⟩
          · rw [hm1b]
            rfl
          · rw [hm1b]
          · have hble : b ≤ e := hasc.le_getLast hlast hbmem
            have := hterm.2.2.1
            omega
        · rw [hloop.2] at hefree
          cases hefree
      · -- orphans: in the terminal case the orphan list is empty
        have horphnil : orph = [] := by
          have hefree : (mem e).inUse = false := by
            have hemem : e ∈ b :: c2 := getLast?_mem' hlastS
            rcases List.mem_cons.mp hemem with rfl | hec2
            · exact hfree
            · rw [hdecomp] at hec2
              simp at hec2
              exact hmidfree e hec2
          rcases hend with hterm | hloop
          · exact hterm.2.2.2
          · rw [hloop.2] at hefree
            cases hefree
        rw [horphnil]
        exact ⟨List.Pairwise.nil, by simp⟩
    · -- the walk stopped at an in-use block: the old end survives
      have hble : b ≤ e := hasc.le_getLast hlast hbmem
      have hc2ne : c2 ≠ [] := by
        rw [hdecomp]
        simp
      have hc2last : c2.getLast? = some e := by
        have : (b :: c2) = [b] ++ c2 := rfl
        rw [this, getLast?_append_right hc2ne] at hlastS
        exact hlastS
      have hpostlast : (p0 :: post').getLast? = some e := by
        rw [hdecomp, getLast?_append_right ((by simp) : p0 :: post' ≠ [])]
          at hc2last
        exact hc2last
      have hemem : e ∈ p0 :: post' := getLast?_mem' hpostlast
      have heb : e ≠ b := by
        intro heq
        exact hbnotc2 (heq ▸ hpostc2 e hemem)
      have hm1e : m1 e = mem e := hframe e heb
      have hlastnew : (c1 ++ b :: p0 :: post').getLast? = some e := by
        rw [getLast?_append_right ((by simp) : b :: p0 :: post' ≠ []),
          List.getLast?_cons_cons]
        exact hpostlast
      refine ⟨e, hlastnew, ?_, horphA, ?_⟩
      · rcases hend with hterm | hloop
        · exact Or.inl ⟨by rw [hm1e]; exact hterm.1, by rw [hm1e]; exact hterm.2.1,
            hterm.2.2.1, hterm.2.2.2⟩
        · exact Or.inr ⟨by rw [hm1e]; exact hloop.1, by rw [hm1e]; exact hloop.2⟩
      · intro o ho
        have hob : o ≠ b := by
          have h1 := (horphB o ho).1
          omega
        rw [hframe o hob]
        exact horphB o ho

/-! ## The allocation scan -/

theorem scanLoop_zero_pos (aux fuel : Nat) (mem : Mem) :
    scanLoop aux (fuel + 1) mem 0 = some (mem, 0) := by
  rw [scanLoop]
  simp

theorem scanLoop_inuse (aux fuel : Nat) (mem : Mem) (a : Nat)
    (ha : a ≠ 0) (hin : (mem a).inUse = true) :
    scanLoop aux (fuel + 1) mem a = scanLoop aux fuel mem (mem a).next := by
  rw [scanLoop]
  simp [ha, IS_INUSE, hin, NEXT_ADDRESS]

theorem scanLoop_free_none (aux fuel : Nat) (mem : Mem) (a : Nat)
    (ha : a ≠ 0) (hfree : (mem a).inUse = false)
    (hdc : do_compact mem fuel a = none) :
    scanLoop aux (fuel + 1) mem a = none := by
  rw [scanLoop]
  simp [ha, IS_INUSE, hfree, hdc]

theorem scanLoop_free_some (aux fuel : Nat) (mem : Mem) (a : Nat) (mA : Mem)
    (ha : a ≠ 0) (hfree : (mem a).inUse = false)
    (hdc : do_compact mem fuel a = some mA) :
    scanLoop aux (fuel + 1) mem a =
      if BLOCK_SIZE mA a ≥ aux then some (mA, a)
      else scanLoop aux fuel mA (mA a).next := by
  rw [scanLoop]
  simp [ha, IS_INUSE, hfree, hdc, NEXT_ADDRESS]

theorem append_snoc_cons (c1 : List Nat) (a : Nat) (X : List Nat) :
    (c1 ++ [a]) ++ X = c1 ++ a :: X := by
  simp

/-- Behaviour of the allocation scan on a well-formed chain: assuming the
already-passed blocks `c1` are inadequate, a terminating scan preserves
the chain structure (compacting free runs on the way), changes only free
blocks of the unscanned suffix `cur`, keeps every in-use block, and when
it selects a block, that block is free and adequate and every block
before it in the chain is in use or too small — first fit. -/
theorem scan_spec {A : Nat} (hA0 : 0 < A) :
    ∀ (fuel : Nat) (mem : Mem) (c1 cur orph : List Nat) (avail aux a : Nat)
      (m' : Mem) (r : Nat),
      ChainOk A avail mem (c1 ++ cur) orph →
      (cur.head? = some a ∨ (cur = [] ∧ a = 0)) →
      (∀ b ∈ c1, (mem b).inUse = true ∨ BLOCK_SIZE mem b < aux) →
      scanLoop aux fuel mem a = some (m', r) →
      ∃ cur',
        ChainOk A avail m' (c1 ++ cur') orph ∧
        (∀ x, (mem x).inUse = true ∨ x ∉ cur → m' x = mem x) ∧
        (∀ x ∈ cur, (mem x).inUse = true → x ∈ cur') ∧
        (∀ x ∈ cur', x ∈ cur) ∧
        (r = 0 ∨ (r ∈ cur' ∧ (m' r).inUse = false ∧ BLOCK_SIZE m' r ≥ aux ∧
          ∀ b ∈ c1 ++ cur', b < r →
            (m' b).inUse = true ∨ BLOCK_SIZE m' b < aux)) := by
  intro fuel
  induction fuel with
  | zero =>
    intro mem c1 cur orph avail aux a m' r _ _ _ hrun
    exact absurd hrun (by simp [scanLoop])
  | succ fuel ih =>
    intro mem c1 cur orph avail aux a m' r hchain hpos hpassed hrun
    rcases hpos with hhd | ⟨hcur, ha0⟩
    · -- we are positioned at the head of `cur`
      rcases cur with _ | ⟨a', cur2⟩
      · simp at hhd
      · have haa : a' = a := by simpa using hhd
        subst haa
        have hamem : a' ∈ c1 ++ a' :: cur2 := by simp
        have ha0 : a' ≠ 0 := by
          have := (hchain.2.2.2.1 a' hamem).1
          omega
        by_cases hin : (mem a').inUse = true
        · -- in-use block: skip it
          rw [scanLoop_inuse aux fuel mem a' ha0 hin] at hrun
          rcases cur2 with _ | ⟨p, rest⟩
          · -- a' is the last block; being in use it must be the self-loop
            obtain ⟨hhead, hlinks, hasc, hbounds, e, hlast, hend, horph⟩ := hchain
            have hea : e = a' := by
              rw [getLast?_append_right ((by simp) : [a'] ≠ [])] at hlast
              simpa using hlast.symm
            subst hea
            have hnext : (mem e).next = e := by
              rcases hend with hterm | hloop
              · rw [hterm.2.1] at hin
                cases hin
              · exact hloop.1
            rw [hnext] at hrun
            obtain ⟨cur', h1, h2, h3, h4, h5⟩ :=
              ih mem c1 [e] orph avail aux e m' r
                ⟨hhead, hlinks, hasc, hbounds, e, hlast, hend, horph⟩
                (Or.inl rfl) hpassed hrun
            exact ⟨cur', h1, h2, h3, h4, h5⟩
          · -- link to the next block and recurse with a' passed
            have hnext : (mem a').next = p := by
              have hl2 : Links mem (a' :: p :: rest) :=
                (List.chain'_append.mp hchain.2.1).2.1
              exact (List.chain'_cons.mp hl2).1
            rw [hnext] at hrun
            have hchain' : ChainOk A avail mem ((c1 ++ [a']) ++ p :: rest) orph := by
              rw [append_snoc_cons]
              exact hchain
            obtain ⟨cur'', h1, h2, h3, h4, h5⟩ :=
              ih mem (c1 ++ [a']) (p :: rest) orph avail aux p m' r hchain'
                (Or.inl rfl)
                (by
                  intro b hb
                  rcases List.mem_append.mp hb with hb1 | hb2
                  · exact hpassed b hb1
                  · simp at hb2
                    rw [hb2]
                    exact Or.inl hin)
                hrun
            refine ⟨a' :: cur'', ?_, ?_, ?_, ?_, ?_⟩
            · rw [← append_snoc_cons]
              exact h1
            · intro x hx
              apply h2
              rcases hx with hx1 | hx2
              · exact Or.inl hx1
              · exact Or.inr (fun hmem => hx2 (List.mem_cons_of_mem _ hmem))
            · intro x hx hxin
              rcases List.mem_cons.mp hx with rfl | hx2
              · exact List.mem_cons_self _ _
              · exact List.mem_cons_of_mem _ (h3 x hx2 hxin)
            · intro x hx
              rcases List.mem_cons.mp hx with rfl | hx2
              · exact List.mem_cons_self _ _
              · exact List.mem_cons_of_mem _ (h4 x hx2)
            · rcases h5 with h5 | ⟨hr1, hr2, hr3, hr4⟩
              · exact Or.inl h5
              · refine Or.inr ⟨List.mem_cons_of_mem _ hr1, hr2, hr3, ?_⟩
                intro b hb hblt
                exact hr4 b (by simpa using hb) hblt
        · -- free block: compact, then test the fit
          have hfree : (mem a').inUse = false := by
            cases hval : (mem a').inUse
            · rfl
            · exact absurd hval hin
          cases hdc0 : do_compact mem fuel a' with
          | none =>
            rw [scanLoop_free_none aux fuel mem a' ha0 hfree hdc0] at hrun
            cases hrun
          | some mA =>
            rw [scanLoop_free_some aux fuel mem a' mA ha0 hfree hdc0] at hrun
            obtain ⟨mid, post, hdecomp, hmidfree, hchainA, hframeA, hm1b, hposts⟩ :=
              compact_at hA0 hchain hfree hdc0
            have hanotmid : a' ∉ mid ∧ a' ∉ post := by
              have hnodup := hchain.2.2.1.nodup
              have : a' ∉ cur2 := by
                have h1 := (List.nodup_append.mp hnodup).2.1
                rw [List.nodup_cons] at h1
                exact h1.1
              rw [hdecomp] at this
              simp at this
              exact this
            split at hrun
            · -- fit: the scan selects a'
              rename_i hfit
              injection hrun with hpair
              injection hpair with hm'eq hreq
              subst hm'eq
              subst hreq
              refine ⟨a' :: post, hchainA, ?_, ?_, ?_, ?_⟩
              · intro x hx
                apply hframeA
                rcases hx with hx1 | hx2
                · intro hxa
                  rw [hxa, hfree] at hx1
                  cases hx1
                · intro hxa
                  exact hx2 (hxa ▸ List.mem_cons_self _ _)
              · intro x hx hxin
                rcases List.mem_cons.mp hx with rfl | hx2
                · exact List.mem_cons_self _ _
                · rw [hdecomp] at hx2
                  rcases List.mem_append.mp hx2 with hxm | hxp
                  · rw [hmidfree x hxm] at hxin
                    cases hxin
                  · exact List.mem_cons_of_mem _ hxp
              · intro x hx
                rcases List.mem_cons.mp hx with rfl | hx2
                · exact List.mem_cons_self _ _
                · apply List.mem_cons_of_mem
                  rw [hdecomp]
                  exact List.mem_append.mpr (Or.inr hx2)
              · refine Or.inr ⟨List.mem_cons_self _ _, ?_, hfit, ?_⟩
                · rw [hm1b]
                · intro b hb hblt
                  rcases List.mem_append.mp hb with hb1 | hb2
                  · have hba : b ≠ a' := by omega
                    have hmb : mA b = mem b := hframeA b hba
                    rcases hpassed b hb1 with hu | hs
                    · exact Or.inl (by rw [hmb]; exact hu)
                    · refine Or.inr ?_
                      rw [BLOCK_SIZE, NEXT_ADDRESS, hmb]
                      exact hs
                  · -- blocks after a' in the new chain are above a'
                    exfalso
                    rcases List.mem_cons.mp hb2 with rfl | hb3
                    · omega
                    · have hasc' : Asc8 (c1 ++ a' :: post) := hchainA.2.2.1
                      have : a' + 8 ≤ b := by
                        have hpw :=
                          (List.pairwise_append.mp hasc').2.1
                        exact (List.pairwise_cons.mp hpw).1 b hb3
                      omega
            · -- no fit: pass a' and recurse from the stop block
              rename_i hnofit
              have hnexta : (mA a').next = post.head?.getD 0 := by
                rw [hm1b]
              rw [hnexta] at hrun
              have hchain' : ChainOk A avail mA ((c1 ++ [a']) ++ post) orph := by
                rw [append_snoc_cons]
                exact hchainA
              have hpassed' :
                  ∀ b ∈ c1 ++ [a'], (mA b).inUse = true ∨ BLOCK_SIZE mA b < aux := by
                intro b hb
                rcases List.mem_append.mp hb with hb1 | hb2
                · have hba : b ≠ a' := by
                    intro hbeq
                    have hnodup := hchain.2.2.1.nodup
                    exact (List.nodup_append.mp hnodup).2.2 hb1 (hbeq ▸ (by simp))
                  have hmb : mA b = mem b := hframeA b hba
                  rcases hpassed b hb1 with hu | hs
                  · exact Or.inl (by rw [hmb]; exact hu)
                  · refine Or.inr ?_
                    rw [BLOCK_SIZE, NEXT_ADDRESS, hmb]
                    exact hs
                · simp at hb2
                  rw [hb2, hm1b]
                  right
                  omega
              have hposition :
                  post.head? = some (post.head?.getD 0) ∨
                    (post = [] ∧ post.head?.getD 0 = 0) := by
                rcases post with _ | ⟨p0, post'⟩
                · exact Or.inr ⟨rfl, rfl⟩
                · exact Or.inl rfl
              obtain ⟨cur'', h1, h2, h3, h4, h5⟩ :=
                ih mA (c1 ++ [a']) post orph avail aux (post.head?.getD 0) m' r
                  hchain' hposition hpassed' hrun
              refine ⟨a' :: cur'', ?_, ?_, ?_, ?_, ?_⟩
              · rw [← append_snoc_cons]
                exact h1
              · -- frame composition
                intro x hx
                have hxa : x ≠ a' := by
                  rcases hx with hx1 | hx2
                  · intro hxa
                    rw [hxa, hfree] at hx1
                    cases hx1
                  · intro hxa
                    exact hx2 (hxa ▸ List.mem_cons_self _ _)
                have hmA : mA x = mem x := hframeA x hxa
                have : m' x = mA x := by
                  apply h2
                  rcases hx with hx1 | hx2
                  · exact Or.inl (by rw [hmA]; exact hx1)
                  · refine Or.inr fun hmem => ?_
                    apply hx2
                    apply List.mem_cons_of_mem
                    rw [hdecomp]
                    exact List.mem_append.mpr (Or.inr hmem)
                rw [this, hmA]
              · intro x hx hxin
                rcases List.mem_cons.mp hx with rfl | hx2
                · rw [hfree] at hxin
                  cases hxin
                · rw [hdecomp] at hx2
                  rcases List.mem_append.mp hx2 with hxm | hxp
                  · rw [hmidfree x hxm] at hxin
                    cases hxin
                  · have hxa : x ≠ a' := fun hxa => hanotmid.2 (hxa ▸ hxp)
                    have hmA : mA x = mem x := hframeA x hxa
                    apply List.mem_cons_of_mem
                    apply h3 x hxp
                    rw [hmA]
                    exact hxin
              · intro x hx
                rcases List.mem_cons.mp hx with rfl | hx2
                · exact List.mem_cons_self _ _
                · apply List.mem_cons_of_mem
                  rw [hdecomp]
                  exact List.mem_append.mpr (Or.inr (h4 x hx2))
              · rcases h5 with h5 | ⟨hr1, hr2, hr3, hr4⟩
                · exact Or.inl h5
                · refine Or.inr ⟨List.mem_cons_of_mem _ hr1, hr2, hr3, ?_⟩
                  intro b hb hblt
                  exact hr4 b (by simpa using hb) hblt
    · -- fell off the end of the chain
      subst hcur ha0
      rw [scanLoop_zero_pos] at hrun
      injection hrun with hpair
      injection hpair with hm'eq hreq
      subst hm'eq
      subst hreq
      exact ⟨[], hchain, fun x _ => rfl, by simp, by simp, Or.inl rfl⟩

/-! ## Marking and splitting the chosen block -/

theorem links_congr_next {mem mem' : Mem} {c : List Nat}
    (hagree : ∀ x ∈ c, (mem' x).next = (mem x).next) (h : Links mem c) :
    Links mem' c := by
  induction c with
  | nil => exact List.chain'_nil
  | cons a c ih =>
    rcases c with _ | ⟨b, c'⟩
    · simp [Links]
    · rw [Links, List.chain'_cons] at h ⊢
      refine ⟨?_, ih (fun x hx => hagree x (List.mem_cons_of_mem _ hx)) h.2⟩
      rw [hagree a (List.mem_cons_self _ _)]
      exact h.1

/-- In a linked ascending chain, every element is the last one or links to
a member at least 8 bytes further. -/
theorem chain_next_mem {mem : Mem} {c : List Nat}
    (hlinks : Links mem c) (hasc : Asc8 c) {x : Nat} (hx : x ∈ c) :
    c.getLast? = some x ∨ ((mem x).next ∈ c ∧ x + 8 ≤ (mem x).next) := by
  induction c with
  | nil => cases hx
  | cons a c ih =>
    rcases c with _ | ⟨b, c'⟩
    · simp at hx
      subst hx
      exact Or.inl rfl
    · rcases List.mem_cons.mp hx with rfl | hx'
      · have h1 := (List.chain'_cons.mp hlinks).1
        have h2 := (List.pairwise_cons.mp hasc).1 b (by simp)
        rw [← h1] at h2 ⊢
        exact Or.inr ⟨List.mem_cons_of_mem _ (by rw [h1]; simp), h2⟩
      · have := ih (List.chain'_cons.mp hlinks).2 (List.pairwise_cons.mp hasc).2 hx'
        rcases this with hlast | ⟨hmem, hle⟩
        · rw [List.getLast?_cons_cons]
          exact Or.inl hlast
        · exact Or.inr ⟨List.mem_cons_of_mem _ hmem, hle⟩

theorem BLOCK_SIZE_next {mem : Mem} {a : Nat}
    (hle : a + 8 ≤ (mem a).next) (hlt : (mem a).next < W) :
    BLOCK_SIZE mem a = (mem a).next - (a + 8) := by
  have haW : a + 8 < W := by omega
  rw [BLOCK_SIZE, NEXT_ADDRESS, SZ_BLOCK_METADATA, Nat.mod_eq_of_lt haW,
    usub_of_le hle hlt]

theorem BLOCK_SIZE_terminal {mem : Mem} {a : Nat}
    (h0 : (mem a).next = 0) (haW : a + 8 < W) :
    BLOCK_SIZE mem a = W - (a + 8) := by
  rw [BLOCK_SIZE, NEXT_ADDRESS, SZ_BLOCK_METADATA, h0, Nat.mod_eq_of_lt haW,
    usub_zero_left (by omega) haW]

end MyMalloc

namespace MyMalloc

theorem mark_step {A avail aux : Nat} (hAok : AOk A)
    {m1 m3 : Mem} {c2 orph : List Nat} {r : Nat}
    (havail : avail ≤ HEAP_SZ) (hauxavail : aux ≤ avail) (haux8 : 8 ∣ aux)
    (hchain : ChainOk A avail m1 c2 orph)
    (hr : r ∈ c2) (hfree : (m1 r).inUse = false)
    (hBS : BLOCK_SIZE m1 r ≥ aux)
    (hm3 : m3 = if BLOCK_SIZE m1 r ≥ aux + SZ_BLOCK_METADATA + ALIGN 1
      then splitMem m1 r ((r + aux) % W)
      else Function.update m1 r (SET_INUSE (m1 r))) :
    MarkOut A avail aux m1 m3 c2 orph r := by
  obtain ⟨hA0, hA8, hAW⟩ := hAok
  obtain ⟨hhead, hlinks, hasc, hbounds, e, hlast, hend, horphA, horphB⟩ := hchain
  have hHS : HEAP_SZ = 4096 := rfl
  obtain ⟨d1, d2, hc2⟩ := List.append_of_mem hr
  subst hc2
  have hnodup : (d1 ++ r :: d2).Nodup := hasc.nodup
  have hrd1 : r ∉ d1 := fun hin => (List.nodup_append.mp hnodup).2.2 hin (by simp)
  have hrd2 : r ∉ d2 := by
    have h1 := (List.nodup_append.mp hnodup).2.1
    rw [List.nodup_cons] at h1
    exact h1.1
  have hrb := hbounds r (by simp)
  have hd1r : ∀ x ∈ d1, x + 8 ≤ r :=
    fun x hx => (List.pairwise_append.mp hasc).2.2 x hx r (by simp)
  have hrd2' : ∀ y ∈ d2, r + 8 ≤ y :=
    (List.pairwise_cons.mp (List.pairwise_append.mp hasc).2.1).1
  have he_ge : ∀ x ∈ d1 ++ r :: d2, x ≤ e := fun x hx => hasc.le_getLast hlast hx
  have horph_above : ∀ o ∈ orph, e + 8 ≤ o := fun o ho => (horphB o ho).1
  have halign1 : ALIGN 1 = 8 := ALIGN_one
  have hre : e ∈ d1 ++ r :: d2 := getLast?_mem' hlast
  have hrle : r ≤ e := he_ge r (by simp)
  -- next field of r is even
  have hnreven : (m1 r).next % 2 = 0 := by
    rcases chain_next_mem hlinks hasc hr with hlastr | ⟨hmem, _⟩
    · rw [hlastr] at hlast
      cases Option.some.inj hlast
      rcases hend with hterm | hloop
      · rw [hterm.1]
      · rw [hloop.1]
        omega
    · have := (hbounds _ hmem).2.2
      omega
  by_cases hbig : BLOCK_SIZE m1 r ≥ aux + SZ_BLOCK_METADATA + ALIGN 1
  · -- split branch
    rw [if_pos hbig] at hm3
    rw [SZ_BLOCK_METADATA, halign1] at hbig
    by_cases haux0 : aux = 0
    · -- zero footprint: the "new block" is r itself and the store
      -- closes it into an in-use self-loop, orphaning everything after r
      subst haux0
      have ht2 : (r + 0) % W = r := by
        rw [Nat.add_zero]
        exact Nat.mod_eq_of_lt (by have := hrb.2.1; omega)
      rw [ht2] at hm3
      have hspec := splitMem_spec m1 r r hnreven (by have := hrb.2.2; omega)
      rw [← hm3] at hspec
      have hm3r : m3 r = ⟨r, true⟩ := hspec.1
      have hframe : ∀ x, x ≠ r → m3 x = m1 x := fun x hx => hspec.2.2 x hx hx
      refine ⟨d1 ++ [r], d2 ++ orph, ?_, ?_, ?_, ?_, ?_, ?_, ?_⟩
      · -- ChainOk: truncated chain ending in the self-loop
        refine ⟨?_, ?_, ?_, ?_, r, by rw [List.getLast?_concat], ?_, ?_, ?_⟩
        · rw [List.head?_append] at hhead ⊢
          simpa using hhead
        · rw [Links, List.chain'_append]
          refine ⟨?_, List.chain'_singleton r, ?_⟩
          · apply links_congr (fun x hx => hframe x (fun hxr => hrd1 (hxr ▸ hx)))
            exact (List.chain'_append.mp hlinks).1
          · intro x hx y hy
            simp at hy
            subst hy
            rw [hframe x (fun hxr => hrd1 (hxr ▸ getLast?_mem' hx))]
            exact (List.chain'_append.mp hlinks).2.2 x hx r (by simp)
        · exact List.Pairwise.sublist
            (List.Sublist.append_left (by simp) d1) hasc
        · intro x hx
          apply hbounds
          rcases List.mem_append.mp hx with hx1 | hx2
          · simp [hx1]
          · simp at hx2
            simp [hx2]
        · exact Or.inr ⟨by rw [hm3r], by rw [hm3r]⟩
        · -- ascending orphans
          rw [Asc8, List.pairwise_append]
          refine ⟨(List.pairwise_cons.mp (List.pairwise_append.mp hasc).2.1).2,
            horphA, ?_⟩
          intro x hx o ho
          have h1 : x ≤ e := he_ge x (by simp [hx])
          have h2 := horph_above o ho
          omega
        · intro o ho
          rcases List.mem_append.mp ho with hod | hoo
          · -- orphaned former chain suffix
            have hor : o ≠ r := fun heq => hrd2 (heq ▸ hod)
            have homem : o ∈ d1 ++ r :: d2 := by simp [hod]
            have hob := hbounds o homem
            refine ⟨hrd2' o hod, hob.2.1, hob.2.2, ?_⟩
            rw [hframe o hor]
            rcases chain_next_mem hlinks hasc homem with hlasto | ⟨hnmem, hole⟩
            · rw [hlasto] at hlast
              cases Option.some.inj hlast
              rcases hend with hterm | hloop
              · exact Or.inl hterm.1
              · exact Or.inr (Or.inl ⟨hloop.1, hloop.2⟩)
            · refine Or.inr (Or.inr ⟨?_, hole⟩)
              have hro : r + 8 ≤ o := hrd2' o hod
              rcases List.mem_append.mp hnmem with hn1 | hn2
              · have := hd1r _ hn1
                omega
              · rcases List.mem_cons.mp hn2 with heq | hn3
                · omega
                · exact List.mem_append.mpr (Or.inl hn3)
          · have hor : o ≠ r := by
              have h1 := horph_above o hoo
              omega
            have h := horphB o hoo
            refine ⟨by have := h.1; omega, h.2.1, h.2.2.1, ?_⟩
            rw [hframe o hor]
            rcases h.2.2.2 with h0 | hself | ⟨hmem, hle⟩
            · exact Or.inl h0
            · exact Or.inr (Or.inl hself)
            · exact Or.inr (Or.inr ⟨List.mem_append.mpr (Or.inr hmem), hle⟩)
      · intro x hx hxin
        have hxr : x ≠ r := by
          intro heq
          rw [heq, hfree] at hxin
          cases hxin
        refine ⟨?_, hframe x hxr⟩
        rcases List.mem_append.mp hx with hx1 | hx2
        · rcases List.mem_append.mp hx1 with hxd1 | hxc
          · simp [hxd1]
          · rcases List.mem_cons.mp hxc with heq | hxd2
            · exact absurd heq hxr
            · exact List.mem_append.mpr (Or.inr (List.mem_append.mpr (Or.inl hxd2)))
        · exact List.mem_append.mpr (Or.inr (List.mem_append.mpr (Or.inr hx2)))
      · rw [hm3r]
      · exact List.mem_append.mpr (Or.inl (by simp))
      · rw [hm3r]
      · intro y hy hry
        rw [hm3r]
        show r ≤ y
        omega
      · intro x hx hxin hold y hy hxy
        have hxr : x ≠ r := by
          intro heq
          rw [heq, hfree] at hxin
          cases hxin
        rw [hframe x hxr]
        apply hold
        · rcases List.mem_append.mp hy with hy1 | hy2
          · rcases List.mem_append.mp hy1 with hyd1 | hyr
            · exact List.mem_append.mpr (Or.inl (by simp [hyd1]))
            · simp at hyr
              exact List.mem_append.mpr (Or.inl (by simp [hyr]))
          · rcases List.mem_append.mp hy2 with hyd2 | hyo
            · exact List.mem_append.mpr (Or.inl (by simp [hyd2]))
            · exact List.mem_append.mpr (Or.inr hyo)
        · exact hxy
    · -- positive footprint: a genuine new free block at r + aux
      have haux8' : 8 ≤ aux := by
        rcases haux8 with ⟨k, hk⟩
        omega
      have hauxle : aux ≤ HEAP_SZ := by omega
      have ht2 : (r + aux) % W = r + aux := by
        apply Nat.mod_eq_of_lt
        have := hrb.2.1
        omega
      rw [ht2] at hm3
      have ht2even : (r + aux) % 2 = 0 := by
        rcases haux8 with ⟨k, hk⟩
        have := hrb.2.2
        omega
      have ht2r : r + aux ≠ r := by omega
      have hspec := splitMem_spec m1 r (r + aux) hnreven ht2even
      rw [← hm3] at hspec
      have hm3r : m3 r = ⟨r + aux, true⟩ := hspec.1
      have hm3t2 : m3 (r + aux) = ⟨(m1 r).next, false⟩ := hspec.2.1 ht2r
      have hframe : ∀ x, x ≠ r → x ≠ r + aux → m3 x = m1 x :=
        fun x hx hx2 => hspec.2.2 x hx hx2
      have hd1t2 : ∀ x ∈ d1, x ≠ r + aux := by
        intro x hx
        have := hd1r x hx
        omega
      rcases d2 with _ | ⟨p0, d2'⟩
      · -- r was the terminal block: the new free block becomes terminal
        have hre' : r = e := by
          rw [List.getLast?_concat] at hlast
          exact Option.some.inj hlast
        have hterm : (m1 r).next = 0 ∧ (m1 r).inUse = false ∧
            r + avail ≤ A + HEAP_SZ ∧ orph = [] := by
          rcases hend with hterm | hloop
          · refine ⟨?_, ?_, ?_, hterm.2.2.2⟩
            · rw [hre']
              exact hterm.1
            · rw [hre']
              exact hterm.2.1
            · have h1 := hterm.2.2.1
              omega
          · rw [hre', hloop.2] at hfree
            cases hfree
        have hm3t2' : m3 (r + aux) = ⟨0, false⟩ := by
          rw [hm3t2, hterm.1]
        refine ⟨d1 ++ [r, r + aux], orph, ?_, ?_, ?_, ?_, ?_, ?_, ?_⟩
        · refine ⟨?_, ?_, ?_, ?_, r + aux, ?_, ?_, ?_, ?_⟩
          · rw [List.head?_append] at hhead ⊢
            simpa using hhead
          · rw [Links, List.chain'_append]
            refine ⟨?_, ?_, ?_⟩
            · apply links_congr
                (fun x hx => hframe x (fun hxr => hrd1 (hxr ▸ hx)) (hd1t2 x hx))
              exact (List.chain'_append.mp hlinks).1
            · rw [List.chain'_cons]
              refine ⟨by rw [hm3r], List.chain'_singleton _⟩
            · intro x hx y hy
              simp at hy
              subst hy
              rw [hframe x (fun hxr => hrd1 (hxr ▸ getLast?_mem' hx))
                (hd1t2 x (getLast?_mem' hx))]
              exact (List.chain'_append.mp hlinks).2.2 x hx r (by simp)
          · rw [Asc8, List.pairwise_append]
            refine ⟨(List.pairwise_append.mp hasc).1, ?_, ?_⟩
            · rw [List.pairwise_cons]
              refine ⟨?_, List.pairwise_singleton _ _⟩
              intro y hy
              simp at hy
              omega
            · intro x hx y hy
              have h1 := hd1r x hx
              simp at hy
              rcases hy with rfl | rfl
              · exact h1
              · omega
          · intro x hx
            rcases List.mem_append.mp hx with hx1 | hx2
            · exact hbounds x (by simp [hx1])
            · simp at hx2
              rcases hx2 with rfl | rfl
              · exact hrb
              · refine ⟨by have := hrb.1; omega, ?_, ?_⟩
                · have h1 := hterm.2.2.1
                  omega
                · have h1 := hrb.2.2
                  rcases haux8 with ⟨k, hk⟩
                  omega
          · show (d1 ++ [r, r + aux]).getLast? = some (r + aux)
            have : d1 ++ [r, r + aux] = (d1 ++ [r]) ++ [r + aux] := by simp
            rw [this, List.getLast?_concat]
          · refine Or.inl ⟨by rw [hm3t2'], by rw [hm3t2'], ?_, hterm.2.2.2⟩
            have := hterm.2.2.1
            omega
          · rw [hterm.2.2.2]
            exact List.Pairwise.nil
          · rw [hterm.2.2.2]
            simp
        · intro x hx hxin
          have hxr : x ≠ r := by
            intro heq
            rw [heq, hfree] at hxin
            cases hxin
          rcases List.mem_append.mp hx with hx1 | hx2
          · rcases List.mem_append.mp hx1 with hxd1 | hxc
            · exact ⟨List.mem_append.mpr (Or.inl (by simp [hxd1])),
                hframe x (fun h => hrd1 (h ▸ hxd1)) (hd1t2 x hxd1)⟩
            · simp at hxc
              exact absurd hxc hxr
          · rw [hterm.2.2.2] at hx2
            cases hx2
        · rw [hm3r]
        · exact List.mem_append.mpr (Or.inl (by simp))
        · rw [hm3r]
          show r + 8 + aux ≤ r + aux + 8
          omega
        · intro y hy hry
          rw [hm3r]
          show r + aux ≤ y
          rcases List.mem_append.mp hy with hy1 | hy2
          · rcases List.mem_append.mp hy1 with hyd1 | hyc
            · have := hd1r y hyd1
              omega
            · simp at hyc
              rcases hyc with rfl | rfl
              · omega
              · omega
          · rw [hterm.2.2.2] at hy2
            cases hy2
        · intro x hx hxin hold y hy hxy
          have hxr : x ≠ r := by
            intro heq
            rw [heq, hfree] at hxin
            cases hxin
          have hxd1 : x ∈ d1 := by
            rcases List.mem_append.mp hx with hx1 | hx2
            · rcases List.mem_append.mp hx1 with h | h
              · exact h
              · simp at h
                exact absurd h hxr
            · rw [hterm.2.2.2] at hx2
              cases hx2
          rw [hframe x hxr (hd1t2 x hxd1)]
          have hxltr : x + 8 ≤ r := hd1r x hxd1
          rcases List.mem_append.mp hy with hy1 | hy2
          · rcases List.mem_append.mp hy1 with hyd1 | hyc
            · exact hold y (List.mem_append.mpr (Or.inl (by simp [hyd1]))) hxy
            · simp at hyc
              have hxr' : (m1 x).next ≤ r :=
                hold r (List.mem_append.mpr (Or.inl (by simp))) (by omega)
              rcases hyc with rfl | rfl
              · exact hxr'
              · omega
          · rw [hterm.2.2.2] at hy2
            cases hy2
      · -- r has a successor p0: insert the new free block before it
        have hp0 : (m1 r).next = p0 :=
          (List.chain'_cons.mp (List.chain'_append.mp hlinks).2.1).1
        have hp0mem : p0 ∈ d1 ++ r :: p0 :: d2' := by simp
        have hp0b := hbounds p0 hp0mem
        have hrp : r + 8 ≤ (m1 r).next := by
          rw [hp0]
          exact hrd2' p0 (by simp)
        have hbs := BLOCK_SIZE_next hrp (by have := hp0b.2.1; rw [hp0]; omega)
        have hrp24 : r + aux + 24 ≤ p0 := by
          rw [hbs, hp0] at hbig
          have := hrd2' p0 (by simp)
          omega
        have ht2p0 : ∀ y ∈ p0 :: d2', r + aux + 8 ≤ y := by
          intro y hy
          rcases List.mem_cons.mp hy with rfl | hy2
          · omega
          · have := (List.pairwise_cons.mp
              (List.pairwise_cons.mp (List.pairwise_append.mp hasc).2.1).2).1 y hy2
            omega
        have hd2t2 : ∀ y ∈ p0 :: d2', y ≠ r + aux := by
          intro y hy
          have := ht2p0 y hy
          omega
        have hd2r : ∀ y ∈ p0 :: d2', y ≠ r := by
          intro y hy heq
          exact hrd2 (heq ▸ hy)
        have hep0 : p0 ≤ e := he_ge p0 hp0mem
        have horph_t2 : ∀ o ∈ orph, o ≠ r + aux := by
          intro o ho
          have h1 := horph_above o ho
          omega
        have horph_r : ∀ o ∈ orph, o ≠ r := by
          intro o ho
          have h1 := horph_above o ho
          omega
        refine ⟨d1 ++ r :: (r + aux) :: p0 :: d2', orph, ?_, ?_, ?_, ?_, ?_, ?_, ?_⟩
        · refine ⟨?_, ?_, ?_, ?_, e, ?_, ?_, horphA, ?_⟩
          · rw [List.head?_append] at hhead ⊢
            simpa using hhead
          · rw [Links, List.chain'_append]
            refine ⟨?_, ?_, ?_⟩
            · apply links_congr
                (fun x hx => hframe x (fun hxr => hrd1 (hxr ▸ hx)) (hd1t2 x hx))
              exact (List.chain'_append.mp hlinks).1
            · rw [List.chain'_cons]
              refine ⟨by rw [hm3r], ?_⟩
              rw [List.chain'_cons]
              refine ⟨by rw [hm3t2, hp0], ?_⟩
              apply links_congr
                (fun x hx => hframe x (hd2r x hx) (hd2t2 x hx))
              exact (List.chain'_cons.mp (List.chain'_append.mp hlinks).2.1).2
            · intro x hx y hy
              simp at hy
              subst hy
              rw [hframe x (fun hxr => hrd1 (hxr ▸ getLast?_mem' hx))
                (hd1t2 x (getLast?_mem' hx))]
              exact (List.chain'_append.mp hlinks).2.2 x hx r (by simp)
          · rw [Asc8, List.pairwise_append]
            refine ⟨(List.pairwise_append.mp hasc).1, ?_, ?_⟩
            · rw [List.pairwise_cons]
              refine ⟨?_, ?_⟩
              · intro y hy
                rcases List.mem_cons.mp hy with rfl | hy2
                · omega
                · have := ht2p0 y hy2
                  omega
              · rw [List.pairwise_cons]
                refine ⟨ht2p0, (List.pairwise_cons.mp
                  (List.pairwise_append.mp hasc).2.1).2⟩
            · intro x hx y hy
              have h1 := hd1r x hx
              rcases List.mem_cons.mp hy with rfl | hy2
              · exact h1
              · rcases List.mem_cons.mp hy2 with rfl | hy3
                · omega
                · have := ht2p0 y hy3
                  omega
          · intro x hx
            rcases List.mem_append.mp hx with hx1 | hx2
            · exact hbounds x (by simp [hx1])
            · rcases List.mem_cons.mp hx2 with rfl | hx3
              · exact hrb
              · rcases List.mem_cons.mp hx3 with rfl | hx4
                · refine ⟨by have := hrb.1; omega, ?_, ?_⟩
                  · have h2 := hp0b.2.1
                    omega
                  · have h1 := hrb.2.2
                    rcases haux8 with ⟨k, hk⟩
                    omega
                · exact hbounds x (by simp [hx4])
          · show (d1 ++ r :: (r + aux) :: p0 :: d2').getLast? = some e
            rw [getLast?_append_right ((by simp) : r :: (r + aux) :: p0 :: d2' ≠ []),
              List.getLast?_cons_cons, List.getLast?_cons_cons]
            rw [getLast?_append_right ((by simp) : r :: p0 :: d2' ≠ []),
              List.getLast?_cons_cons] at hlast
            exact hlast
          · -- EndOk: the old end is in p0 :: d2' and is untouched
            have hemem' : e ∈ p0 :: d2' := by
              rw [getLast?_append_right ((by simp) : r :: p0 :: d2' ≠ []),
                List.getLast?_cons_cons] at hlast
              exact getLast?_mem' hlast
            have hm3e : m3 e = m1 e :=
              hframe e (hd2r e hemem') (hd2t2 e hemem')
            rcases hend with hterm | hloop
            · exact Or.inl ⟨by rw [hm3e]; exact hterm.1,
                by rw [hm3e]; exact hterm.2.1,
                by have := hterm.2.2.1; omega, hterm.2.2.2⟩
            · exact Or.inr ⟨by rw [hm3e]; exact hloop.1,
                by rw [hm3e]; exact hloop.2⟩
          · intro o ho
            have hor : o ≠ r := horph_r o ho
            have hot2 : o ≠ r + aux := horph_t2 o ho
            rw [hframe o hor hot2]
            exact horphB o ho
        · intro x hx hxin
          have hxr : x ≠ r := by
            intro heq
            rw [heq, hfree] at hxin
            cases hxin
          rcases List.mem_append.mp hx with hx1 | hx2
          · rcases List.mem_append.mp hx1 with hxd1 | hxc
            · exact ⟨List.mem_append.mpr (Or.inl (by simp [hxd1])),
                hframe x (fun h => hrd1 (h ▸ hxd1)) (hd1t2 x hxd1)⟩
            · rcases List.mem_cons.mp hxc with heq | hxd2
              · exact absurd heq hxr
              · exact ⟨List.mem_append.mpr (Or.inl (by simp [hxd2])),
                  hframe x (hd2r x hxd2) (hd2t2 x hxd2)⟩
          · exact ⟨List.mem_append.mpr (Or.inr hx2),
              hframe x (horph_r x hx2) (horph_t2 x hx2)⟩
        · rw [hm3r]
        · exact List.mem_append.mpr (Or.inl (by simp))
        · rw [hm3r]
          show r + 8 + aux ≤ r + aux + 8
          omega
        · intro y hy hry
          rw [hm3r]
          show r + aux ≤ y
          rcases List.mem_append.mp hy with hy1 | hy2
          · rcases List.mem_append.mp hy1 with hyd1 | hyc
            · have := hd1r y hyd1
              omega
            · rcases List.mem_cons.mp hyc with rfl | hy3
              · omega
              · rcases List.mem_cons.mp hy3 with rfl | hy4
                · omega
                · have := ht2p0 y hy4
                  omega
          · have h1 := horph_above y hy2
            omega
        · intro x hx hxin hold y hy hxy
          have hxr : x ≠ r := by
            intro heq
            rw [heq, hfree] at hxin
            cases hxin
          have hxt2 : x ≠ r + aux := by
            rcases List.mem_append.mp hx with hx1 | hx2
            · rcases List.mem_append.mp hx1 with hxd1 | hxc
              · exact hd1t2 x hxd1
              · rcases List.mem_cons.mp hxc with heq | hxd2
                · exact absurd heq hxr
                · exact hd2t2 x hxd2
            · exact horph_t2 x hx2
          rw [hframe x hxr hxt2]
          rcases List.mem_append.mp hy with hy1 | hy2
          · rcases List.mem_append.mp hy1 with hyd1 | hyc
            · exact hold y (List.mem_append.mpr (Or.inl (by simp [hyd1]))) hxy
            · rcases List.mem_cons.mp hyc with rfl | hy3
              · exact hold y (List.mem_append.mpr (Or.inl (by simp))) hxy
              · rcases List.mem_cons.mp hy3 with rfl | hy4
                · -- the new block: x is below r, so its next is bounded by r
                  have hxd1 : x ∈ d1 := by
                    rcases List.mem_append.mp hx with hx1 | hx2
                    · rcases List.mem_append.mp hx1 with h | h
                      · exact h
                      · rcases List.mem_cons.mp h with heq | hxd2
                        · exact absurd heq hxr
                        · exfalso
                          have := ht2p0 x hxd2
                          omega
                    · exfalso
                      have h1 := horph_above x hx2
                      omega
                  have := hold r (List.mem_append.mpr (Or.inl (by simp)))
                    (by have := hd1r x hxd1; omega)
                  omega
                · exact hold y (List.mem_append.mpr (Or.inl (by simp [hy4]))) hxy
          · exact hold y (List.mem_append.mpr (Or.inr hy2)) hxy
  · -- no-split branch
    rw [if_neg hbig] at hm3
    -- r cannot be terminal (its wrapped size would be enormous)
    have hnext0 : (m1 r).next ≠ 0 := by
      intro h0
      have hbs := BLOCK_SIZE_terminal h0 (by omega)
      rw [SZ_BLOCK_METADATA, halign1] at hbig
      rw [hbs] at hbig
      have : r ≤ A + HEAP_SZ := hrb.2.1
      omega
    have her : e ≠ r := by
      intro heq
      subst heq
      rcases hend with hterm | hloop
      · exact hnext0 hterm.1
      · rw [hloop.2] at hfree
        cases hfree
    -- r is not the last block, so d2 starts with r's successor p0
    rcases d2 with _ | ⟨p0, d2'⟩
    · exfalso
      apply her
      rw [List.getLast?_concat] at hlast
      exact Option.some.inj hlast.symm
    have hp0 : (m1 r).next = p0 :=
      (List.chain'_cons.mp (List.chain'_append.mp hlinks).2.1).1
    have hp0mem : p0 ∈ d1 ++ r :: p0 :: d2' := by simp
    have hp0W : (m1 r).next < W := by
      rw [hp0]
      have := (hbounds p0 hp0mem).2.1
      omega
    have hrp : r + 8 ≤ (m1 r).next := by
      rw [hp0]
      exact hrd2' p0 (by simp)
    have hbs := BLOCK_SIZE_next hrp hp0W
    have hfit : r + 8 + aux ≤ (m1 r).next := by
      rw [hbs] at hBS
      omega
    have hm3r : m3 r = ⟨(m1 r).next, true⟩ := by
      rw [hm3, Function.update_same, SET_even hnreven]
    have hframe : ∀ x, x ≠ r → m3 x = m1 x := by
      intro x hx
      rw [hm3, Function.update_noteq hx]
    have hnextsame : ∀ x, (m3 x).next = (m1 x).next := by
      intro x
      by_cases hx : x = r
      · rw [hx, hm3r]
      · rw [hframe x hx]
    refine ⟨d1 ++ r :: p0 :: d2', orph, ?_, ?_, ?_, ?_, ?_, ?_, ?_⟩
    · -- ChainOk with unchanged lists
      refine ⟨hhead, links_congr_next (fun x _ => hnextsame x) hlinks, hasc,
        hbounds, e, hlast, ?_, horphA, ?_⟩
      · rcases hend with hterm | hloop
        · refine Or.inl ⟨?_, ?_, by have := hterm.2.2.1; omega, hterm.2.2.2⟩
          · rw [hframe e her]
            exact hterm.1
          · rw [hframe e her]
            exact hterm.2.1
        · refine Or.inr ⟨?_, ?_⟩
          · rw [hframe e her]
            exact hloop.1
          · rw [hframe e her]
            exact hloop.2
      · intro o ho
        have hor : o ≠ r := by
          have h1 := horph_above o ho
          omega
        rw [hframe o hor]
        exact horphB o ho
    · intro x hx hxin
      have hxr : x ≠ r := by
        intro heq
        rw [heq, hfree] at hxin
        cases hxin
      exact ⟨hx, hframe x hxr⟩
    · rw [hm3r]
    · simp
    · rw [hm3r]
      show r + 8 + aux ≤ (m1 r).next + 8
      omega
    · intro y hy hry
      rw [hm3r]
      show (m1 r).next ≤ y
      rw [hp0]
      rcases List.mem_append.mp hy with hy1 | hy2
      · rcases List.mem_append.mp hy1 with hyd1 | hyc
        · have := hd1r y hyd1
          omega
        · rcases List.mem_cons.mp hyc with rfl | hyc2
          · omega
          · rcases List.mem_cons.mp hyc2 with rfl | hyd2'
            · omega
            · have := (List.pairwise_cons.mp
                (List.pairwise_cons.mp (List.pairwise_append.mp hasc).2.1).2).1 y hyd2'
              omega
      · have h1 := horph_above y hy2
        have h2 : p0 ≤ e := he_ge p0 hp0mem
        omega
    · intro x hx hxin hold y hy hxy
      rw [hnextsame x]
      exact hold y hy hxy

end MyMalloc

namespace MyMalloc

/-- Every chain block's stored next reference is even: it is null, a
self-loop at an 8-aligned address, or another 8-aligned chain address. -/
theorem next_even_of_chain {A avail : Nat} {mem : Mem} {c orph : List Nat}
    (hchain : ChainOk A avail mem c orph) {x : Nat} (hx : x ∈ c) :
    (mem x).next % 2 = 0 := by
  obtain ⟨hhead, hlinks, hasc, hbounds, e, hlast, hend, horphA, horphB⟩ := hchain
  rcases chain_next_mem hlinks hasc hx with hlast' | ⟨hmem, _⟩
  · have hex : x = e := by
      rw [hlast'] at hlast
      exact Option.some.inj hlast
    subst hex
    rcases hend with hterm | hloop
    · rw [hterm.1]
    · rw [hloop.1]
      exact even_of_mod8 (hbounds x hx).2.2
  · exact even_of_mod8 (hbounds _ hmem).2.2

/-- Every orphaned block's stored next reference is even. -/
theorem next_even_of_orph {A : Nat} {mem : Mem} {e : Nat} {orph : List Nat}
    (horph : OrphOk A mem e orph) {o : Nat} (ho : o ∈ orph) :
    (mem o).next % 2 = 0 := by
  obtain ⟨_, h2⟩ := horph
  rcases (h2 o ho).2.2.2 with h0 | hself | hfwd
  · rw [h0]
  · rw [hself.1]
    exact even_of_mod8 (h2 o ho).2.2.1
  · exact even_of_mod8 (h2 _ hfwd.1).2.2.1

/-- The coalescing walk diverges on a free self-loop block. -/
theorem compactFrom_selfloop {mem : Mem} {b : Nat}
    (hb : b ≠ 0) (hfree : (mem b).inUse = false) (hloop : (mem b).next = b) :
    ∀ fuel, compactFrom mem fuel b = none := by
  intro fuel
  induction fuel with
  | zero => rfl
  | succ fuel ih =>
    rw [compactFrom_step hb hfree, hloop]
    exact ih

/-- The marking loop of `reset_heap` diverges on a self-loop block. -/
theorem resetLoop_self :
    ∀ (fuel : Nat) (m : Mem) (a : Nat), a ≠ 0 → a % 2 = 0 → (m a).next = a →
      resetLoop fuel m a = none := by
  intro fuel
  induction fuel with
  | zero =>
    intro m a _ _ _
    rfl
  | succ fuel ih =>
    intro m a ha haev hnext
    rw [resetLoop, if_neg ha]
    have hup : Function.update m a (UNSET_INUSE (m a)) a = ⟨a, false⟩ := by
      rw [Function.update_same, UNSET_INUSE, hnext, toHeader_even haev]
    show resetLoop fuel (Function.update m a (UNSET_INUSE (m a)))
      (NEXT_ADDRESS (Function.update m a (UNSET_INUSE (m a)) a)) = none
    rw [NEXT_ADDRESS, hup]
    exact ih _ a ha haev (by rw [hup])

/-- A terminating marking pass over a linked chain whose last block is
terminal or a self-loop clears exactly the in-use bits of the chain: the
walk must in fact end at a terminal block (a self-loop diverges), every
chain header keeps its next reference and becomes free, and everything
else is untouched. -/
theorem resetLoop_spec :
    ∀ (c : List Nat) (fuel : Nat) (m : Mem) (a : Nat) (mm : Mem),
      (c.head? = some a ∨ (c = [] ∧ a = 0)) →
      Links m c → c.Nodup →
      (∀ x ∈ c, 0 < x ∧ (m x).next % 2 = 0 ∧ x % 2 = 0) →
      (∀ e, c.getLast? = some e → (m e).next = 0 ∨ (m e).next = e) →
      resetLoop fuel m a = some mm →
      (∀ x ∈ c, mm x = ⟨(m x).next, false⟩) ∧ (∀ x, x ∉ c → mm x = m x) ∧
      (∀ e, c.getLast? = some e → (m e).next = 0) := by
  intro c
  induction c with
  | nil =>
    intro fuel m a mm hhead _ _ _ _ hrun
    rcases hhead with h | ⟨_, rfl⟩
    · cases h
    obtain ⟨f1, rfl⟩ : ∃ f1, fuel = f1 + 1 := by
      rcases fuel with _ | f1
      · cases hrun
      · exact ⟨f1, rfl⟩
    rw [resetLoop, if_pos rfl] at hrun
    cases hrun
    exact ⟨by simp, fun x _ => rfl, by simp⟩
  | cons x c' ih =>
    intro fuel m a mm hhead hlinks hnodup hfacts hend hrun
    rcases hhead with h | ⟨h, _⟩
    swap
    · cases h
    have hax : a = x := (by simpa using h : x = a).symm
    subst hax
    obtain ⟨ha0', hanev, haev⟩ := hfacts a (by simp)
    have ha0 : a ≠ 0 := by omega
    obtain ⟨f1, rfl⟩ : ∃ f1, fuel = f1 + 1 := by
      rcases fuel with _ | f1
      · cases hrun
      · exact ⟨f1, rfl⟩
    rw [resetLoop, if_neg ha0] at hrun
    have hrun' : resetLoop f1 (Function.update m a (UNSET_INUSE (m a)))
        (NEXT_ADDRESS (Function.update m a (UNSET_INUSE (m a)) a)) = some mm := hrun
    have hma : Function.update m a (UNSET_INUSE (m a)) a = ⟨(m a).next, false⟩ := by
      rw [Function.update_same, UNSET_even hanev]
    rw [NEXT_ADDRESS, hma] at hrun'
    have hanotc' : a ∉ c' := (List.nodup_cons.mp hnodup).1
    have hagree : ∀ z ∈ c', Function.update m a (UNSET_INUSE (m a)) z = m z := by
      intro z hz
      exact Function.update_noteq (fun (hza : z = a) => hanotc' (hza ▸ hz)) _ _
    rcases c' with _ | ⟨y, c''⟩
    · -- the single block `a` is the last one
      rcases hend a rfl with h0 | hself
      · rw [h0] at hrun'
        obtain ⟨f2, rfl⟩ : ∃ f2, f1 = f2 + 1 := by
          rcases f1 with _ | f2
          · cases hrun'
          · exact ⟨f2, rfl⟩
        rw [resetLoop, if_pos rfl] at hrun'
        cases hrun'
        refine ⟨?_, ?_, ?_⟩
        · intro z hz
          rcases List.mem_cons.mp hz with rfl | hz'
          · exact hma
          · cases hz'
        · intro z hz
          exact Function.update_noteq (fun hza => hz (by rw [hza]; simp)) _ _
        · intro e he
          rw [show e = a from (Option.some.inj (by simpa using he)).symm]
          exact h0
      · exfalso
        rw [hself] at hrun'
        rw [resetLoop_self f1 _ a ha0 haev (by rw [hma, hself])] at hrun'
        cases hrun'
    · -- recurse along the tail
      have hay : (m a).next = y := (List.chain'_cons.mp hlinks).1
      rw [hay] at hrun'
      obtain ⟨H1, H2, H3⟩ := ih f1 (Function.update m a (UNSET_INUSE (m a))) y mm
        (Or.inl rfl)
        (links_congr hagree (List.chain'_cons.mp hlinks).2)
        (List.nodup_cons.mp hnodup).2
        (by
          intro z hz
          rw [hagree z hz]
          exact hfacts z (by simp [hz]))
        (by
          intro e he
          rw [hagree e (getLast?_mem' he)]
          exact hend e (by rw [List.getLast?_cons_cons]; exact he))
        hrun'
      refine ⟨?_, ?_, ?_⟩
      · intro z hz
        rcases List.mem_cons.mp hz with rfl | hz'
        · rw [H2 z hanotc', hma]
        · rw [H1 z hz', hagree z hz']
      · intro z hz
        rw [H2 z (fun hzc => hz (by simp [hzc]))]
        exact Function.update_noteq (fun hza => hz (by rw [hza]; simp)) _ _
      · intro e he
        rw [List.getLast?_cons_cons] at he
        have := H3 e he
        rw [hagree e (getLast?_mem' he)] at this
        exact this

/-- A terminating coalescing walk started inside the orphan region stays
in it, moving strictly forward through free orphans, and stops at null or
at an in-use orphan at or beyond the start. -/
theorem orph_walk {m : Mem} {orph : List Nat}
    (hpos : ∀ o ∈ orph, 0 < o)
    (hstep : ∀ o ∈ orph, (m o).inUse = false →
      (m o).next = 0 ∨ ((m o).next ∈ orph ∧ o + 8 ≤ (m o).next)) :
    ∀ (fuel : Nat) (b l : Nat), b ∈ orph → compactFrom m fuel b = some l →
      l = 0 ∨ (l ∈ orph ∧ b ≤ l ∧ (m l).inUse = true) := by
  intro fuel
  induction fuel with
  | zero =>
    intro b l _ h
    cases h
  | succ fuel ih =>
    intro b l hb hcf
    have hb0 : b ≠ 0 := by
      have := hpos b hb
      omega
    by_cases hbu : (m b).inUse = true
    · rw [compactFrom_halt (Or.inr hbu)] at hcf
      cases hcf
      exact Or.inr ⟨hb, Nat.le_refl _, hbu⟩
    · have hbf : (m b).inUse = false := by
        cases h : (m b).inUse
        · rfl
        · exact absurd h hbu
      rw [compactFrom_step hb0 hbf] at hcf
      rcases hstep b hb hbf with h0 | ⟨hmem, hle⟩
      · rw [h0] at hcf
        obtain ⟨f2, rfl⟩ : ∃ f2, fuel = f2 + 1 :=
          ⟨fuel - 1, by have := compactFrom_some_fuel hcf; omega⟩
        rw [compactFrom_halt (Or.inl rfl)] at hcf
        exact Or.inl (Option.some.inj hcf).symm
      · rcases ih (m b).next l hmem hcf with h | ⟨h1, h2, h3⟩
        · exact Or.inl h
        · exact Or.inr ⟨h1, by omega, h3⟩

/-- Erasing the `i`-th element of a list with pairwise-distinct first
components removes the only occurrence of that first component. -/
theorem eraseIdx_fst_ne :
    ∀ (l : List (Nat × Nat)) (i : Nat) (pa qa : Nat × Nat),
      (l.map Prod.fst).Nodup → l[i]? = some pa → qa ∈ l.eraseIdx i →
      qa.1 ≠ pa.1 := by
  intro l
  induction l with
  | nil =>
    intro i pa qa _ hi _
    rw [List.getElem?_nil] at hi
    cases hi
  | cons x l ih =>
    intro i pa qa hnd hi hq
    rw [List.map_cons, List.nodup_cons] at hnd
    rcases i with _ | j
    · rw [List.getElem?_cons_zero] at hi
      cases hi
      rw [List.eraseIdx_cons_zero] at hq
      intro heq
      exact hnd.1 (heq ▸ List.mem_map_of_mem Prod.fst hq)
    · rw [List.getElem?_cons_succ] at hi
      rw [List.eraseIdx_cons_succ] at hq
      rcases List.mem_cons.mp hq with rfl | hq'
      · intro heq
        have hpal : pa ∈ l := by
          have hsz : j < l.length := by
            rcases Nat.lt_or_ge j l.length with h | h
            · exact h
            · rw [List.getElem?_eq_none h] at hi
              cases hi
          rw [List.getElem?_eq_getElem hsz] at hi
          rw [← Option.some.inj hi]
          exact List.getElem_mem hsz
        exact hnd.1 (heq.symm ▸ List.mem_map_of_mem Prod.fst hpal)
      · exact ih j pa qa hnd.2 hi hq'

end MyMalloc

namespace MyMalloc

/-- `mymalloc` on an uninitialized heap behaves like `mymalloc` on the
freshly initialized heap. -/
theorem mymalloc_init (A fuel : Nat) (h : Heap) (n : Nat) (hsz : h.size = 0) :
    mymalloc A fuel h n = mymalloc A fuel (init_heap A h) n := by
  rw [mymalloc, mymalloc]
  rw [if_pos hsz,
    if_neg (show ¬ (init_heap A h).size = 0 by show ¬ (4096 : Nat) = 0; norm_num)]

/-- The heap as `mymalloc` sees it after the lazy initialization satisfies
the chain and liveness invariants. -/
theorem init_invariant {A : Nat} (hAok : AOk A) {st : St} (hinv : Inv A st) :
    ∃ c orph,
      (if st.h.size = 0 then init_heap A st.h else st.h).size = HEAP_SZ ∧
      (if st.h.size = 0 then init_heap A st.h else st.h).start = A ∧
      (if st.h.size = 0 then init_heap A st.h else st.h).avail ≤ HEAP_SZ ∧
      ChainOk A (if st.h.size = 0 then init_heap A st.h else st.h).avail
        (if st.h.size = 0 then init_heap A st.h else st.h).mem c orph ∧
      LiveOk (if st.h.size = 0 then init_heap A st.h else st.h).mem c orph
        st.live := by
  obtain ⟨hA0, hA8, hAW⟩ := hAok
  have hHS : HEAP_SZ = 4096 := rfl
  rcases hinv with ⟨hsz, hlv⟩ | ⟨c, orph, hsz, hstart, havail, hchain, hlive⟩
  · refine ⟨[A], [], ?_⟩
    rw [if_pos hsz]
    have hmemA : (init_heap A st.h).mem A = ⟨0, false⟩ := by
      show Function.update st.h.mem A (toHeader 0) A = ⟨0, false⟩
      rw [Function.update_same]
      rfl
    refine ⟨rfl, rfl, Nat.le_refl _, ?_, ?_⟩
    · refine ⟨rfl, List.chain'_singleton _, List.pairwise_singleton _ _, ?_,
        A, rfl, ?_, ?_, ?_⟩
      · intro x hx
        have hxA : x = A := by simpa using hx
        subst hxA
        exact ⟨Nat.le_refl _, by omega, hA8⟩
      · left
        rw [hmemA]
        exact ⟨rfl, rfl, Nat.le_refl _, rfl⟩
      · exact List.Pairwise.nil
      · intro o ho
        cases ho
    · rw [hlv]
      exact ⟨List.nodup_nil, fun pa hpa => absurd hpa (by simp)⟩
  · have hsz' : ¬ st.h.size = 0 := by
      rw [hsz, hHS]
      norm_num
    rw [if_neg hsz']
    exact ⟨c, orph, hsz, hstart, havail, hchain, hlive⟩

/-- After the chosen block is marked (and possibly split), the chain and
liveness invariants hold with the new allocation prepended to the live
list. -/
theorem markout_live {A avail aux : Nat} {m1 m3 : Mem} {c2 orph : List Nat}
    {r : Nat} {live : List (Nat × Nat)}
    (havail : avail ≤ HEAP_SZ) (hauxavail : aux ≤ avail) (haux8 : 8 ∣ aux)
    (hmo : MarkOut A avail aux m1 m3 c2 orph r)
    (hlive : LiveOk m1 c2 orph live)
    (hrfree : (m1 r).inUse = false)
    (hrmod : r % 8 = 0) :
    ∃ c3 orph3, ChainOk A (avail - aux) m3 c3 orph3 ∧
      LiveOk m3 c3 orph3 ((r + 8, aux) :: live) := by
  obtain ⟨c3, orph3, hch3, hpres, hru, hrmem, hfoot, hbound, hmono⟩ := hmo
  obtain ⟨hnodup, hl⟩ := hlive
  obtain ⟨k, hk⟩ := haux8
  refine ⟨c3, orph3, hch3, ?_, ?_⟩
  · rw [List.map_cons, List.nodup_cons]
    refine ⟨?_, hnodup⟩
    intro hmem
    rcases List.mem_map.mp hmem with ⟨pa, hpa, hfst⟩
    have h8 := (hl pa hpa).1
    have huse := (hl pa hpa).2.2.2.2.2.1
    have hpar : pa.1 - 8 = r := by omega
    rw [hpar] at huse
    rw [huse] at hrfree
    cases hrfree
  · intro pa hpa
    rcases List.mem_cons.mp hpa with rfl | hpaold
    · show 8 ≤ r + 8 ∧ (r + 8) % 8 = 0 ∧ aux % 8 = 0 ∧ aux ≤ HEAP_SZ ∧
        r + 8 - 8 ∈ c3 ++ orph3 ∧ (m3 (r + 8 - 8)).inUse = true ∧
        r + 8 + aux ≤ (m3 (r + 8 - 8)).next + 8 ∧
        ∀ y ∈ c3 ++ orph3, r + 8 - 8 < y → (m3 (r + 8 - 8)).next ≤ y
      have hr8 : r + 8 - 8 = r := by omega
      rw [hr8]
      exact ⟨by omega, by omega, by omega, by omega, hrmem, hru, hfoot, hbound⟩
    · obtain ⟨h1, h2, h3, h4, h5, h6, h7, h8⟩ := hl pa hpaold
      obtain ⟨hm5, heq⟩ := hpres (pa.1 - 8) h5 h6
      refine ⟨h1, h2, h3, h4, hm5, ?_, ?_, ?_⟩
      · rw [heq]
        exact h6
      · rw [heq]
        exact h7
      · intro y hy hlt
        exact hmono (pa.1 - 8) h5 h6 h8 y hy hlt

/-- Invariant preservation through a full `mymalloc` call on an
initialized well-formed heap, for both a NULL result and a successful
allocation. -/
theorem malloc_invI {A : Nat} (hAok : AOk A) {h0 h' : Heap} {c orph : List Nat}
    {live : List (Nat × Nat)} {p n : Nat}
    (hsz : h0.size = HEAP_SZ) (hstart : h0.start = A) (havail : h0.avail ≤ HEAP_SZ)
    (hchain : ChainOk A h0.avail h0.mem c orph)
    (hlive : LiveOk h0.mem c orph live)
    (hm : mymalloc A FUEL h0 n = some (h', p)) :
    (p = 0 → InvI A { h := h', live := live }) ∧
    (p ≠ 0 → InvI A { h := h', live := (p, auxOf n) :: live }) := by
  have hA0 := hAok.1
  have hA8 := hAok.2.1
  have hAW := hAok.2.2
  have hHS : HEAP_SZ = 4096 := rfl
  have hsz' : ¬ h0.size = 0 := by
    rw [hsz, hHS]
    norm_num
  rw [mymalloc] at hm
  simp only [hsz', if_false] at hm
  by_cases hgt : auxOf n > h0.avail
  · rw [if_pos hgt] at hm
    cases hm
    exact ⟨fun _ => ⟨c, orph, hsz, hstart, havail, hchain, hlive⟩,
      fun hp => absurd rfl hp⟩
  · rw [if_neg hgt] at hm
    have haux : auxOf n ≤ h0.avail := by omega
    have haux8 := auxOf_dvd n
    rcases hsl : scanLoop (auxOf n) FUEL h0.mem h0.start with _ | ⟨m', r⟩
    · rw [hsl] at hm
      exact absurd hm (by simp)
    rcases Nat.eq_zero_or_pos r with rfl | hrpos
    · rw [hsl] at hm
      exact absurd hm (by simp)
    obtain ⟨r', rfl⟩ : ∃ r', r = r' + 1 := ⟨r - 1, by omega⟩
    simp only [hsl] at hm
    obtain ⟨cur', hch', hpres, hkeep, hsub, hres⟩ :=
      scan_spec hA0 FUEL h0.mem [] c orph h0.avail (auxOf n) h0.start m' (r' + 1)
        hchain (Or.inl (by rw [hstart]; exact hchain.1)) (by simp) hsl
    rcases hres with h0' | ⟨hrmem, hrfree, hrBS, hfirst⟩
    · exact absurd h0' (Nat.succ_ne_zero r')
    have hch'' : ChainOk A h0.avail m' cur' orph := hch'
    have hlive' : LiveOk m' cur' orph live := by
      obtain ⟨hnd, hl⟩ := hlive
      refine ⟨hnd, ?_⟩
      intro pa hpa
      obtain ⟨h1, h2, h3, h4, h5, h6, h7, h8⟩ := hl pa hpa
      have hmx : m' (pa.1 - 8) = h0.mem (pa.1 - 8) := hpres _ (Or.inl h6)
      have hmem' : pa.1 - 8 ∈ cur' ++ orph := by
        rcases List.mem_append.mp h5 with hc | ho
        · exact List.mem_append.mpr (Or.inl (hkeep _ hc h6))
        · exact List.mem_append.mpr (Or.inr ho)
      refine ⟨h1, h2, h3, h4, hmem', by rw [hmx]; exact h6, by rw [hmx]; exact h7, ?_⟩
      intro y hy hlt
      rw [hmx]
      refine h8 y ?_ hlt
      rcases List.mem_append.mp hy with hc | ho
      · exact List.mem_append.mpr (Or.inl (hsub _ hc))
      · exact List.mem_append.mpr (Or.inr ho)
    have hrb := hch''.2.2.2.1 (r' + 1) hrmem
    have hrW : r' + 1 + 8 < W := by
      have := hrb.2.1
      omega
    have hpv : (r' + 1 + SZ_BLOCK_METADATA) % W = r' + 1 + 8 := by
      rw [SZ_BLOCK_METADATA]
      exact Nat.mod_eq_of_lt hrW
    have husub : usub h0.avail (auxOf n) = h0.avail - auxOf n :=
      usub_of_le haux (by omega)
    split at hm
    · rename_i hbig
      cases hm
      have hm3eq : splitMem m' (r' + 1) ((r' + 1 + auxOf n) % W) =
          if BLOCK_SIZE m' (r' + 1) ≥ auxOf n + SZ_BLOCK_METADATA + ALIGN 1 then
            splitMem m' (r' + 1) ((r' + 1 + auxOf n) % W)
          else Function.update m' (r' + 1) (SET_INUSE (m' (r' + 1))) :=
        (if_pos hbig).symm
      have hmark := mark_step hAok havail haux haux8 hch'' hrmem hrfree hrBS hm3eq
      obtain ⟨c3, orph3, hch3, hlv3⟩ :=
        markout_live havail haux haux8 hmark hlive' hrfree hrb.2.2
      refine ⟨fun hp0 => absurd hp0 (by rw [hpv]; omega), fun _ => ?_⟩
      refine ⟨c3, orph3, hsz, hstart, ?_, ?_, ?_⟩
      · show usub h0.avail (auxOf n) ≤ HEAP_SZ
        rw [husub]
        omega
      · show ChainOk A (usub h0.avail (auxOf n))
          (splitMem m' (r' + 1) ((r' + 1 + auxOf n) % W)) c3 orph3
        rw [husub]
        exact hch3
      · show LiveOk (splitMem m' (r' + 1) ((r' + 1 + auxOf n) % W)) c3 orph3
          (((r' + 1 + SZ_BLOCK_METADATA) % W, auxOf n) :: live)
        rw [hpv]
        exact hlv3
    · rename_i hsmall
      cases hm
      have hm3eq : Function.update m' (r' + 1) (SET_INUSE (m' (r' + 1))) =
          if BLOCK_SIZE m' (r' + 1) ≥ auxOf n + SZ_BLOCK_METADATA + ALIGN 1 then
            splitMem m' (r' + 1) ((r' + 1 + auxOf n) % W)
          else Function.update m' (r' + 1) (SET_INUSE (m' (r' + 1))) :=
        (if_neg hsmall).symm
      have hmark := mark_step hAok havail haux haux8 hch'' hrmem hrfree hrBS hm3eq
      obtain ⟨c3, orph3, hch3, hlv3⟩ :=
        markout_live havail haux haux8 hmark hlive' hrfree hrb.2.2
      refine ⟨fun hp0 => absurd hp0 (by rw [hpv]; omega), fun _ => ?_⟩
      refine ⟨c3, orph3, hsz, hstart, ?_, ?_, ?_⟩
      · show usub h0.avail (auxOf n) ≤ HEAP_SZ
        rw [husub]
        omega
      · show ChainOk A (usub h0.avail (auxOf n))
          (Function.update m' (r' + 1) (SET_INUSE (m' (r' + 1)))) c3 orph3
        rw [husub]
        exact hch3
      · show LiveOk (Function.update m' (r' + 1) (SET_INUSE (m' (r' + 1)))) c3 orph3
          (((r' + 1 + SZ_BLOCK_METADATA) % W, auxOf n) :: live)
        rw [hpv]
        exact hlv3

/-- A `mymalloc` call preserves the trace invariant. -/
theorem malloc_preserves {A : Nat} (hAok : AOk A) {st st' : St} {n : Nat}
    (hinv : Inv A st) (hstep : stepOp A st (Op.malloc n) = some st') :
    Inv A st' := by
  rw [stepOp] at hstep
  rcases Option.map_eq_some'.mp hstep with ⟨⟨h', p⟩, hm, hst'⟩
  obtain ⟨c, orph, hsz, hstart, havail, hchain, hlive⟩ := init_invariant hAok hinv
  have hm0 : mymalloc A FUEL (if st.h.size = 0 then init_heap A st.h else st.h) n
      = some (h', p) := by
    by_cases h0 : st.h.size = 0
    · rw [if_pos h0, ← mymalloc_init A FUEL st.h n h0]
      exact hm
    · rw [if_neg h0]
      exact hm
  have hkey := malloc_invI hAok hsz hstart havail hchain hlive hm0
  have hst2 : (if p = 0 then ({ h := h', live := st.live } : St)
      else { h := h', live := (p, auxOf n) :: st.live }) = st' := hst'
  by_cases hp0 : p = 0
  · rw [if_pos hp0] at hst2
    rw [← hst2]
    exact Or.inr (hkey.1 hp0)
  · rw [if_neg hp0] at hst2
    rw [← hst2]
    exact Or.inr (hkey.2 hp0)

end MyMalloc

namespace MyMalloc

/-- A `myfree` call on a live pointer preserves the trace invariant. -/
theorem free_preserves {A : Nat} (hAok : AOk A) {st st' : St} {i : Nat}
    (hinv : Inv A st) (hstep : stepOp A st (Op.mfree i) = some st') :
    Inv A st' := by
  have hA0 := hAok.1
  have hA8 := hAok.2.1
  have hAW := hAok.2.2
  have hHS : HEAP_SZ = 4096 := rfl
  rw [stepOp] at hstep
  rcases hlv : st.live[i]? with _ | ⟨p, a⟩
  · simp only [hlv] at hstep
    cases hstep
    exact hinv
  · simp only [hlv] at hstep
    rcases Option.map_eq_some'.mp hstep with ⟨h', hfr, hst'⟩
    rcases hinv with ⟨hsz0, hlive0⟩ | ⟨c, orph, hsz, hstart, havail, hchain, hlive⟩
    · rw [hlive0, List.getElem?_nil] at hlv
      cases hlv
    have hpa : (p, a) ∈ st.live := by
      have hsz' : i < st.live.length := by
        rcases Nat.lt_or_ge i st.live.length with h | h
        · exact h
        · rw [List.getElem?_eq_none h] at hlv
          cases hlv
      rw [List.getElem?_eq_getElem hsz'] at hlv
      rw [← Option.some.inj hlv]
      exact List.getElem_mem hsz'
    obtain ⟨hhead, hlinks, hasc, hbounds, e, hlast, hend, horphA, horphB⟩ := hchain
    have hp8 : 8 ≤ p := (hlive.2 (p, a) hpa).1
    have hxmem : p - 8 ∈ c ++ orph := (hlive.2 (p, a) hpa).2.2.2.2.1
    have hxuse : (st.h.mem (p - 8)).inUse = true := (hlive.2 (p, a) hpa).2.2.2.2.2.1
    have hein : e ∈ c := getLast?_mem' hlast
    have heA : A ≤ e := (hbounds e hein).1
    have hbub : p - 8 ≤ A + HEAP_SZ := by
      rcases List.mem_append.mp hxmem with hbc | hbo
      · exact (hbounds _ hbc).2.1
      · exact (horphB _ hbo).2.1
    have hp0 : ¬ p = 0 := by omega
    rw [myfree, if_neg hp0] at hfr
    have hfr' : (do_compact (Function.update st.h.mem (usub p SZ_BLOCK_METADATA)
        (UNSET_INUSE (st.h.mem (usub p SZ_BLOCK_METADATA)))) FUEL
          (usub p SZ_BLOCK_METADATA)).map
        (fun m2 =>
          ({ size := st.h.size
             avail := st.h.avail
             start := st.h.start
             mem := m2 } : Heap)) = some h' := hfr
    have htmp : usub p SZ_BLOCK_METADATA = p - 8 := by
      rw [SZ_BLOCK_METADATA]
      exact usub_of_le (by omega) (by omega)
    rw [htmp] at hfr'
    rcases Option.map_eq_some'.mp hfr' with ⟨m2, hdc, hh'⟩
    have hh'2 : ({ size := st.h.size
                   avail := st.h.avail
                   start := st.h.start
                   mem := m2 } : Heap) = h' := hh'
    have hst2 : ({ h := h', live := st.live.eraseIdx i } : St) = st' := hst'
    -- properties of the header store
    have hnodupL : ((st.live.eraseIdx i).map Prod.fst).Nodup :=
      List.Nodup.sublist (List.Sublist.map Prod.fst (List.eraseIdx_sublist _ _))
        hlive.1
    have hfst_ne : ∀ qa ∈ st.live.eraseIdx i, qa.1 ≠ p := by
      intro qa hq
      exact eraseIdx_fst_ne st.live i (p, a) qa hlive.1 hlv hq
    rcases List.mem_append.mp hxmem with hbc | hbo
    · -- the released block is a chain block
      have hne : (st.h.mem (p - 8)).next % 2 = 0 :=
        next_even_of_chain ⟨hhead, hlinks, hasc, hbounds, e, hlast, hend,
          horphA, horphB⟩ hbc
      have hb00 : p - 8 ≠ 0 := by
        have := (hbounds _ hbc).1
        omega
      have hm1b : Function.update st.h.mem (p - 8)
          (UNSET_INUSE (st.h.mem (p - 8))) (p - 8) =
          ⟨(st.h.mem (p - 8)).next, false⟩ := by
        rw [Function.update_same, UNSET_even hne]
      have hm1x : ∀ x, x ≠ p - 8 → Function.update st.h.mem (p - 8)
          (UNSET_INUSE (st.h.mem (p - 8))) x = st.h.mem x :=
        fun x hx => Function.update_noteq hx _ _
      have hm1free : (Function.update st.h.mem (p - 8)
          (UNSET_INUSE (st.h.mem (p - 8))) (p - 8)).inUse = false := by
        rw [hm1b]
      have hbe : p - 8 ≤ e := hasc.le_getLast hlast hbc
      have hbne : p - 8 ≠ e := by
        intro hbe'
        rcases hend with hterm | hloop
        · rw [hbe', hterm.2.1] at hxuse
          exact Bool.noConfusion hxuse
        · have hnexteq : (Function.update st.h.mem (p - 8)
              (UNSET_INUSE (st.h.mem (p - 8))) (p - 8)).next = p - 8 := by
            rw [hm1b]
            show (st.h.mem (p - 8)).next = p - 8
            rw [hbe']
            exact hloop.1
          rw [do_compact,
            compactFrom_selfloop hb00 hm1free hnexteq FUEL] at hdc
          exact absurd hdc (by simp)
      -- the chain stays well formed after clearing the bit
      have hchain1 : ChainOk A st.h.avail (Function.update st.h.mem (p - 8)
          (UNSET_INUSE (st.h.mem (p - 8)))) c orph := by
        refine ⟨hhead, ?_, hasc, ?_, e, hlast, ?_, horphA, ?_⟩
        · refine links_congr_next ?_ hlinks
          intro x hx
          by_cases hxb : x = p - 8
          · rw [hxb, hm1b]
          · rw [hm1x x hxb]
        · exact hbounds
        · have hme : Function.update st.h.mem (p - 8)
              (UNSET_INUSE (st.h.mem (p - 8))) e = st.h.mem e :=
            hm1x e (Ne.symm hbne)
          rcases hend with hterm | hloop
          · exact Or.inl ⟨by rw [hme]; exact hterm.1, by rw [hme]; exact hterm.2.1,
              hterm.2.2.1, hterm.2.2.2⟩
          · exact Or.inr ⟨by rw [hme]; exact hloop.1, by rw [hme]; exact hloop.2⟩
        · intro o ho
          have hob : o ≠ p - 8 := by
            have h1 := (horphB o ho).1
            omega
          rw [hm1x o hob]
          exact horphB o ho
      obtain ⟨d1, d2, rfl⟩ := List.append_of_mem hbc
      obtain ⟨mid, post, hd2eq, hmidfree, hchain2, hframe2, hm2b, hpostuse⟩ :=
        compact_at hA0 hchain1 hm1free hdc
      rw [← hst2, ← hh'2]
      refine Or.inr ⟨d1 ++ (p - 8) :: post, orph, hsz, hstart, havail, hchain2, ?_⟩
      show LiveOk m2 (d1 ++ (p - 8) :: post) orph (st.live.eraseIdx i)
      refine ⟨hnodupL, ?_⟩
      intro qa hq
      have hqa' : qa ∈ st.live := (List.eraseIdx_sublist _ _).subset hq
      obtain ⟨g1, g2, g3, g4, g5, g6, g7, g8⟩ := hlive.2 qa hqa'
      have hxbne : qa.1 - 8 ≠ p - 8 := by
        have := hfst_ne qa hq
        omega
      have hm1q : Function.update st.h.mem (p - 8)
          (UNSET_INUSE (st.h.mem (p - 8))) (qa.1 - 8) = st.h.mem (qa.1 - 8) :=
        hm1x _ hxbne
      have hm2q : m2 (qa.1 - 8) = st.h.mem (qa.1 - 8) := by
        rw [hframe2 _ hxbne, hm1q]
      have hq1use : (Function.update st.h.mem (p - 8)
          (UNSET_INUSE (st.h.mem (p - 8))) (qa.1 - 8)).inUse = true := by
        rw [hm1q]
        exact g6
      have hmem2 : qa.1 - 8 ∈ (d1 ++ (p - 8) :: post) ++ orph := by
        rcases List.mem_append.mp g5 with hc | ho
        · rcases List.mem_append.mp hc with hd1 | hcc
          · exact List.mem_append.mpr (Or.inl (List.mem_append.mpr (Or.inl hd1)))
          · rcases List.mem_cons.mp hcc with heq | hd2
            · exact absurd heq hxbne
            · rw [hd2eq] at hd2
              rcases List.mem_append.mp hd2 with hmid | hpost
              · exact absurd hq1use (by rw [hmidfree _ hmid]; simp)
              · exact List.mem_append.mpr (Or.inl (List.mem_append.mpr
                  (Or.inr (List.mem_cons_of_mem _ hpost))))
        · exact List.mem_append.mpr (Or.inr ho)
      refine ⟨g1, g2, g3, g4, hmem2, by rw [hm2q]; exact g6, by rw [hm2q]; exact g7,
        ?_⟩
      intro y hy hlt
      rw [hm2q]
      refine g8 y ?_ hlt
      rcases List.mem_append.mp hy with hc | ho
      · rcases List.mem_append.mp hc with hd1 | hcc
        · exact List.mem_append.mpr (Or.inl (List.mem_append.mpr (Or.inl hd1)))
        · rcases List.mem_cons.mp hcc with heq | hpost
          · exact List.mem_append.mpr (Or.inl (List.mem_append.mpr
              (Or.inr (by rw [heq]; simp))))
          · exact List.mem_append.mpr (Or.inl (List.mem_append.mpr
              (Or.inr (by rw [hd2eq]; simp [hpost]))))
      · exact List.mem_append.mpr (Or.inr ho)
    · -- the released block is an orphan
      have hne : (st.h.mem (p - 8)).next % 2 = 0 :=
        next_even_of_orph ⟨horphA, horphB⟩ hbo
      have hb00 : p - 8 ≠ 0 := by
        have := (horphB _ hbo).1
        omega
      have hm1b : Function.update st.h.mem (p - 8)
          (UNSET_INUSE (st.h.mem (p - 8))) (p - 8) =
          ⟨(st.h.mem (p - 8)).next, false⟩ := by
        rw [Function.update_same, UNSET_even hne]
      have hm1x : ∀ x, x ≠ p - 8 → Function.update st.h.mem (p - 8)
          (UNSET_INUSE (st.h.mem (p - 8))) x = st.h.mem x :=
        fun x hx => Function.update_noteq hx _ _
      have hm1free : (Function.update st.h.mem (p - 8)
          (UNSET_INUSE (st.h.mem (p - 8))) (p - 8)).inUse = false := by
        rw [hm1b]
      have hbopts : (st.h.mem (p - 8)).next = 0 ∨
          ((st.h.mem (p - 8)).next ∈ orph ∧ p - 8 + 8 ≤ (st.h.mem (p - 8)).next) := by
        rcases (horphB _ hbo).2.2.2 with h0 | hself | hfwd
        · exact Or.inl h0
        · exfalso
          have hnexteq : (Function.update st.h.mem (p - 8)
              (UNSET_INUSE (st.h.mem (p - 8))) (p - 8)).next = p - 8 := by
            rw [hm1b]
            exact hself.1
          rw [do_compact,
            compactFrom_selfloop hb00 hm1free hnexteq FUEL] at hdc
          exact absurd hdc (by simp)
        · exact Or.inr hfwd
      rw [do_compact] at hdc
      rcases Option.map_eq_some'.mp hdc with ⟨l, hcf, hm2eq⟩
      have hwalk := orph_walk
        (fun o ho => by have := (horphB o ho).1; omega)
        (fun o ho hof => by
          by_cases hob : o = p - 8
          · rw [hob, hm1b]
            show (st.h.mem (p - 8)).next = 0 ∨
              ((st.h.mem (p - 8)).next ∈ orph ∧ p - 8 + 8 ≤ (st.h.mem (p - 8)).next)
            exact hbopts
          · rw [hm1x o hob] at hof ⊢
            rcases (horphB o ho).2.2.2 with h0 | hself | hfwd
            · exact Or.inl h0
            · rw [hself.2] at hof
              exact Bool.noConfusion hof
            · exact Or.inr hfwd)
        FUEL (p - 8) l hbo hcf
      have hleven : l % 2 = 0 := by
        rcases hwalk with rfl | ⟨hlmem, _, _⟩
        · rfl
        · exact even_of_mod8 (horphB l hlmem).2.2.1
      have hm2b : m2 (p - 8) = ⟨l, false⟩ := by
        rw [← hm2eq, Function.update_same, toHeader_even hleven]
      have hm2x : ∀ x, x ≠ p - 8 → m2 x = Function.update st.h.mem (p - 8)
          (UNSET_INUSE (st.h.mem (p - 8))) x := by
        intro x hx
        rw [← hm2eq, Function.update_noteq hx]
      have hm2xx : ∀ x, x ≠ p - 8 → m2 x = st.h.mem x := by
        intro x hx
        rw [hm2x x hx, hm1x x hx]
      have hcne : ∀ x ∈ c, x ≠ p - 8 := by
        intro x hx hxb
        have h1 := hasc.le_getLast hlast hx
        have h2 := (horphB _ hbo).1
        omega
      have hchain2 : ChainOk A st.h.avail m2 c orph := by
        refine ⟨hhead, ?_, hasc, hbounds, e, hlast, ?_, horphA, ?_⟩
        · exact links_congr (fun x hx => hm2xx x (hcne x hx)) hlinks
        · have hme : m2 e = st.h.mem e := hm2xx e (hcne e hein)
          rcases hend with hterm | hloop
          · exact Or.inl ⟨by rw [hme]; exact hterm.1, by rw [hme]; exact hterm.2.1,
              hterm.2.2.1, hterm.2.2.2⟩
          · exact Or.inr ⟨by rw [hme]; exact hloop.1, by rw [hme]; exact hloop.2⟩
        · intro o ho
          by_cases hob : o = p - 8
          · refine ⟨(horphB o ho).1, (horphB o ho).2.1, (horphB o ho).2.2.1, ?_⟩
            rw [hob, hm2b]
            show l = 0 ∨ (l = p - 8 ∧ false = true) ∨ (l ∈ orph ∧ p - 8 + 8 ≤ l)
            rcases hwalk with rfl | ⟨hlmem, hlge, hluse⟩
            · exact Or.inl rfl
            · have hlno : l ≠ p - 8 := by
                intro hlo
                rw [hlo, hm1free] at hluse
                exact Bool.noConfusion hluse
              have hfwd8 : p - 8 + 8 ≤ l :=
                horphA.rel hbo hlmem (by omega)
              exact Or.inr (Or.inr ⟨hlmem, hfwd8⟩)
          · rw [hm2xx o hob]
            exact horphB o ho
      rw [← hst2, ← hh'2]
      refine Or.inr ⟨c, orph, hsz, hstart, havail, hchain2, ?_⟩
      show LiveOk m2 c orph (st.live.eraseIdx i)
      refine ⟨hnodupL, ?_⟩
      intro qa hq
      have hqa' : qa ∈ st.live := (List.eraseIdx_sublist _ _).subset hq
      obtain ⟨g1, g2, g3, g4, g5, g6, g7, g8⟩ := hlive.2 qa hqa'
      have hxbne : qa.1 - 8 ≠ p - 8 := by
        have := hfst_ne qa hq
        omega
      have hm2q : m2 (qa.1 - 8) = st.h.mem (qa.1 - 8) := hm2xx _ hxbne
      exact ⟨g1, g2, g3, g4, g5, by rw [hm2q]; exact g6, by rw [hm2q]; exact g7,
        fun y hy hlt => by rw [hm2q]; exact g8 y hy hlt⟩

end MyMalloc

namespace MyMalloc

/-- A `reset_heap` call preserves the trace invariant. -/
theorem reset_preserves {A : Nat} (hAok : AOk A) {st st' : St}
    (hinv : Inv A st) (hstep : stepOp A st Op.reset = some st') :
    Inv A st' := by
  have hA0 := hAok.1
  have hA8 := hAok.2.1
  have hAW := hAok.2.2
  have hHS : HEAP_SZ = 4096 := rfl
  rw [stepOp] at hstep
  rcases Option.map_eq_some'.mp hstep with ⟨h', hr, hst'⟩
  have hst2 : ({ h := h', live := [] } : St) = st' := hst'
  rw [reset_heap] at hr
  rcases Option.bind_eq_some.mp hr with ⟨mm, hrl, hmap⟩
  rcases Option.map_eq_some'.mp hmap with ⟨m2, hdc, hh'⟩
  have hh'2 : ({ size := st.h.size
                 avail := st.h.avail
                 start := st.h.start
                 mem := m2 } : Heap) = h' := hh'
  rcases hinv with ⟨hsz0, _⟩ | ⟨c, orph, hsz, hstart, havail, hchain, hlive⟩
  · -- still uninitialized: only the memory changes
    rw [← hst2, ← hh'2]
    exact Or.inl ⟨hsz0, rfl⟩
  · obtain ⟨hhead, hlinks, hasc, hbounds, e, hlast, hend, horphA, horphB⟩ := hchain
    have hnev : ∀ x ∈ c, (st.h.mem x).next % 2 = 0 := fun x hx =>
      next_even_of_chain ⟨hhead, hlinks, hasc, hbounds, e, hlast, hend,
        horphA, horphB⟩ hx
    rw [hstart] at hrl
    obtain ⟨hclear, hout, hterm0⟩ := resetLoop_spec c FUEL st.h.mem A mm
      (Or.inl hhead) hlinks hasc.nodup
      (fun x hx => ⟨by have := (hbounds x hx).1; omega, hnev x hx,
        even_of_mod8 (hbounds x hx).2.2⟩)
      (fun e' he' => by
        rw [show e' = e from Option.some.inj (by rw [← hlast, he'])]
        rcases hend with hterm | hloop
        · exact Or.inl hterm.1
        · exact Or.inr hloop.1)
      hrl
    have hnext0 : (st.h.mem e).next = 0 := hterm0 e hlast
    -- the old end must have been terminal, so there are no orphans
    have horph0 : orph = [] := by
      rcases hend with hterm | hloop
      · exact hterm.2.2.2
      · exfalso
        rw [hloop.1] at hnext0
        have := (hbounds e (getLast?_mem' hlast)).1
        omega
    have heavail : e + st.h.avail ≤ A + HEAP_SZ := by
      rcases hend with hterm | hloop
      · exact hterm.2.2.1
      · exfalso
        rw [hloop.1] at hnext0
        have := (hbounds e (getLast?_mem' hlast)).1
        omega
    -- the cleared memory is a well-formed all-free chain
    have hchainmm : ChainOk A st.h.avail mm c [] := by
      refine ⟨hhead, ?_, hasc, hbounds, e, hlast, ?_, List.Pairwise.nil, ?_⟩
      · refine links_congr_next ?_ hlinks
        intro x hx
        rw [hclear x hx]
      · left
        rw [hclear e (getLast?_mem' hlast)]
        exact ⟨hnext0, rfl, heavail, rfl⟩
      · intro o ho
        cases ho
    -- run the final compaction from the arena base
    rcases c with _ | ⟨a0, ctail⟩
    · cases hhead
    have ha0A : A = a0 := (Option.some.inj hhead).symm
    subst ha0A
    have hAfree : (mm A).inUse = false := by
      rw [hclear A (by simp)]
    rw [hstart] at hdc
    have hchainmm' : ChainOk A st.h.avail mm ([] ++ A :: ctail) [] := hchainmm
    obtain ⟨mid, post, hdeq, hmidfree, hchain2, hframe2, hm2A, hpostuse⟩ :=
      compact_at hA0 hchainmm' hAfree hdc
    rw [← hst2, ← hh'2]
    refine Or.inr ⟨A :: post, [], hsz, hstart, havail, hchain2, ?_⟩
    show LiveOk m2 (A :: post) [] []
    exact ⟨List.nodup_nil, fun pa hpa => absurd hpa (by simp)⟩

/-- Any single call preserves the trace invariant. -/
theorem inv_step {A : Nat} (hAok : AOk A) {st st' : St} {op : Op}
    (hinv : Inv A st) (hstep : stepOp A st op = some st') : Inv A st' := by
  cases op with
  | malloc n => exact malloc_preserves hAok hinv hstep
  | mfree i => exact free_preserves hAok hinv hstep
  | reset => exact reset_preserves hAok hinv hstep

/-- The trace invariant holds along every terminating run. -/
theorem inv_run {A : Nat} (hAok : AOk A) :
    ∀ (ops : List Op) (st st' : St), Inv A st → runAux A st ops = some st' →
      Inv A st' := by
  intro ops
  induction ops with
  | nil =>
    intro st st' h hr
    rw [runAux] at hr
    cases hr
    exact h
  | cons op ops ih =>
    intro st st' h hr
    rw [runAux] at hr
    rcases hs : stepOp A st op with _ | st1
    · rw [hs] at hr
      cases hr
    · rw [hs] at hr
      exact ih st1 st' (inv_step hAok h hs) hr

/-- The trace invariant holds after every terminating run from the fresh
process state. -/
theorem inv_runOps {A : Nat} (hAok : AOk A) (g : Mem) {ops : List Op} {st : St}
    (hr : runOps A g ops = some st) : Inv A st :=
  inv_run hAok ops _ st (Or.inl ⟨rfl, rfl⟩) hr

end MyMalloc

namespace MyMalloc

/-- **C1.**  Disjointness of live allocations: after any terminating trace
of well-behaved calls (`mymalloc` of arbitrary sizes, `myfree` of live
pointers, `reset_heap`) from the fresh process state, any two distinct
live pointers returned by `mymalloc` — each covering its padded footprint
of bytes — occupy disjoint byte ranges. -/
theorem liveDisjoint {A : Nat} (hA : AOk A) (g : Mem) (ops : List Op)
    {p a q b : Nat}
    (hp : (p, a) ∈ liveOf (runOps A g ops))
    (hq : (q, b) ∈ liveOf (runOps A g ops))
    (hne : p ≠ q) :
    p + a ≤ q ∨ q + b ≤ p := by
  rcases hrun : runOps A g ops with _ | st
  · rw [hrun] at hp
    exact absurd hp (by simp [liveOf])
  rw [hrun] at hp hq
  have hp' : (p, a) ∈ st.live := hp
  have hq' : (q, b) ∈ st.live := hq
  have hinv := inv_runOps hA g hrun
  rcases hinv with ⟨_, hlv⟩ | ⟨c, orph, _, _, _, hchain, hlive⟩
  · rw [hlv] at hp'
    exact absurd hp' (List.not_mem_nil _)
  have hpfacts : 8 ≤ p ∧ p % 8 = 0 ∧ a % 8 = 0 ∧ a ≤ HEAP_SZ ∧
      p - 8 ∈ c ++ orph ∧ (st.h.mem (p - 8)).inUse = true ∧
      p + a ≤ (st.h.mem (p - 8)).next + 8 ∧
      ∀ y ∈ c ++ orph, p - 8 < y → (st.h.mem (p - 8)).next ≤ y :=
    hlive.2 (p, a) hp'
  have hqfacts : 8 ≤ q ∧ q % 8 = 0 ∧ b % 8 = 0 ∧ b ≤ HEAP_SZ ∧
      q - 8 ∈ c ++ orph ∧ (st.h.mem (q - 8)).inUse = true ∧
      q + b ≤ (st.h.mem (q - 8)).next + 8 ∧
      ∀ y ∈ c ++ orph, q - 8 < y → (st.h.mem (q - 8)).next ≤ y :=
    hlive.2 (q, b) hq'
  obtain ⟨hp8, _, _, _, hpmem, _, hpfoot, hpbound⟩ := hpfacts
  obtain ⟨hq8, _, _, _, hqmem, _, hqfoot, hqbound⟩ := hqfacts
  rcases Nat.lt_or_ge (p - 8) (q - 8) with hlt | hge
  · left
    have := hpbound (q - 8) hqmem hlt
    omega
  · right
    have hlt' : q - 8 < p - 8 := by omega
    have := hqbound (p - 8) hpmem hlt'
    omega

/-- Witness for `liveDisjoint`: after two 10-byte allocations from the
fresh state the live pointers 8224 and 8200, each of padded footprint 24,
do not overlap. -/
theorem liveDisjointWitness :
    (((8224, 24) : Nat × Nat) ∈
        liveOf (runOps 8192 gZero [Op.malloc 10, Op.malloc 10]) ∧
      ((8200, 24) : Nat × Nat) ∈
        liveOf (runOps 8192 gZero [Op.malloc 10, Op.malloc 10]) ∧
      (8224 : Nat) ≠ 8200) ∧
    (8224 + 24 ≤ 8200 ∨ 8200 + 24 ≤ 8224) := by
  have h1 : ((8224, 24) : Nat × Nat) ∈
      liveOf (runOps 8192 gZero [Op.malloc 10, Op.malloc 10]) := by decide
  have h2 : ((8200, 24) : Nat × Nat) ∈
      liveOf (runOps 8192 gZero [Op.malloc 10, Op.malloc 10]) := by decide
  exact ⟨⟨h1, h2, by norm_num⟩,
    liveDisjoint ⟨by norm_num, by norm_num, by norm_num [W]⟩ gZero
      [Op.malloc 10, Op.malloc 10] h1 h2 (by norm_num)⟩

/-- **C6.**  First fit: whenever `mymalloc` returns a pointer (in a state
reached by a terminating trace), the pointer sits just past the header of
the block the scan selected, and in the scanned memory — where every free
block visited was coalesced with its following free run on the fly — that
block is free with post-coalescing size at least the padded footprint,
while every chain block at a lower address is in use or too small. -/
theorem mallocFirstFit {A : Nat} (hA : AOk A) (g : Mem) (ops : List Op)
    {st : St} (hrun : runOps A g ops = some st) {n p : Nat}
    (hm : (mymalloc A FUEL st.h n).map Prod.snd = some p) (hp : p ≠ 0) :
    ∃ (c : List Nat) (m' : Mem) (r : Nat),
      p = (r + SZ_BLOCK_METADATA) % W ∧
      scanLoop (auxOf n) FUEL
        (if st.h.size = 0 then init_heap A st.h else st.h).mem
        (if st.h.size = 0 then init_heap A st.h else st.h).start
        = some (m', r) ∧
      c.head? = some A ∧ Links m' c ∧ Asc8 c ∧ r ∈ c ∧
      (m' r).inUse = false ∧ BLOCK_SIZE m' r ≥ auxOf n ∧
      ∀ x ∈ c, x < r → (m' x).inUse = true ∨ BLOCK_SIZE m' x < auxOf n := by
  have hA0 := hA.1
  have hHS : HEAP_SZ = 4096 := rfl
  obtain ⟨c, orph, hsz, hstart, havail, hchain, hlive⟩ :=
    init_invariant hA (inv_runOps hA g hrun)
  have hm0 : (mymalloc A FUEL
      (if st.h.size = 0 then init_heap A st.h else st.h) n).map Prod.snd
      = some p := by
    by_cases h0 : st.h.size = 0
    · rw [if_pos h0, ← mymalloc_init A FUEL st.h n h0]
      exact hm
    · rw [if_neg h0]
      exact hm
  set h0 := if st.h.size = 0 then init_heap A st.h else st.h with hh0def
  rcases Option.map_eq_some'.mp hm0 with ⟨⟨h', p'⟩, hm1, hpp⟩
  have hpp' : p' = p := hpp
  subst hpp'
  have hsz' : ¬ h0.size = 0 := by
    rw [hsz, hHS]
    norm_num
  rw [mymalloc] at hm1
  simp only [hsz', if_false] at hm1
  by_cases hgt : auxOf n > h0.avail
  · rw [if_pos hgt] at hm1
    have : p' = 0 := (Prod.mk.injEq _ _ _ _).mp (Option.some.inj hm1) |>.2.symm
    exact absurd this hp
  · rw [if_neg hgt] at hm1
    rcases hsl : scanLoop (auxOf n) FUEL h0.mem h0.start with _ | ⟨m', r⟩
    · rw [hsl] at hm1
      exact absurd hm1 (by simp)
    rcases Nat.eq_zero_or_pos r with rfl | hrpos
    · rw [hsl] at hm1
      exact absurd hm1 (by simp)
    obtain ⟨r', rfl⟩ : ∃ r', r = r' + 1 := ⟨r - 1, by omega⟩
    simp only [hsl] at hm1
    obtain ⟨cur', hch', hpres, hkeep, hsub, hres⟩ :=
      scan_spec hA0 FUEL h0.mem [] c orph h0.avail (auxOf n) h0.start m' (r' + 1)
        hchain (Or.inl (by rw [hstart]; exact hchain.1)) (by simp) hsl
    rcases hres with h0' | ⟨hrmem, hrfree, hrBS, hfirst⟩
    · exact absurd h0' (Nat.succ_ne_zero r')
    have hpval : p' = (r' + 1 + SZ_BLOCK_METADATA) % W := by
      split at hm1
      · exact ((Prod.mk.injEq _ _ _ _).mp (Option.some.inj hm1)).2.symm
      · exact ((Prod.mk.injEq _ _ _ _).mp (Option.some.inj hm1)).2.symm
    refine ⟨cur', m', r' + 1, hpval, rfl, hch'.1, hch'.2.1, hch'.2.2.1, hrmem,
      hrfree, hrBS, ?_⟩
    intro x hx hxr
    exact hfirst x hx hxr

/-- Witness for `mallocFirstFit`: the first allocation from the fresh
state returns 8200, the payload of the arena-base block 8192, the first
(and only) free block of the freshly initialized chain. -/
theorem mallocFirstFitWitness :
    ∃ (c : List Nat) (m' : Mem) (r : Nat),
      (8200 : Nat) = (r + SZ_BLOCK_METADATA) % W ∧
      scanLoop (auxOf 10) FUEL
        (init_heap 8192 { size := 0, avail := 0, start := 0, mem := gZero }).mem
        (init_heap 8192 { size := 0, avail := 0, start := 0, mem := gZero }).start
        = some (m', r) ∧
      c.head? = some 8192 ∧ Links m' c ∧ Asc8 c ∧ r ∈ c ∧
      (m' r).inUse = false ∧ BLOCK_SIZE m' r ≥ auxOf 10 ∧
      ∀ x ∈ c, x < r → (m' x).inUse = true ∨ BLOCK_SIZE m' x < auxOf 10 := by
  have hA : AOk 8192 := ⟨by norm_num, by norm_num, by norm_num [W]⟩
  have hrun : runOps 8192 gZero [] =
      some { h := { size := 0, avail := 0, start := 0, mem := gZero },
             live := [] } := rfl
  have hm : (mymalloc 8192 FUEL
      ({ h := { size := 0, avail := 0, start := 0, mem := gZero },
         live := [] } : St).h 10).map Prod.snd = some 8200 := by rfl
  exact mallocFirstFit hA gZero [] hrun hm (by norm_num)

end MyMalloc
